import Mathlib

/-!
Verification of the trellofs virtual-filesystem core against its
natural-language specification.

The development shallowly embeds the Go source of the repository:

* `src/trello/*.go` — the plain data records fetched from the remote
  snapshot source (`Card`, `Board`, `Workspace`, `CardLabel`);
* `src/fs/meta.go` — the reflection-driven field renderer `getMeta`;
* `src/fs/card.go` — `FSCardMetaFile.ReadAt`, `FSCard.Update`,
  `FSCard.LookupChild`, `FSCard.ReadDir`;
* `src/fs/board.go` and `src/fs/list.go` — the board's synthetic
  `cards/` collection, `FSList.Update`, and their lookup/readdir loops;
* `src/fs/workspace.go` — `FSWorkspace.Update`, `LookupChild`, `ReadDir`;
* `src/fs/fs.go` — the inode table (`NewTrelloFS`, `refreshNode`) and
  the kernel-facing `ReadFile` dispatch;
* `src/fs/base.go` — `BaseFSNode.shouldUpdate`, `markUpdated`, and the
  shared `BaseFSNode.ReadAt` stub.

Machine integers: inode ids and byte counts are far from overflow in any
scenario treated here, so they are modelled as `Nat`.  Timestamps are
modelled as `Int` seconds (Go compares `time.Since(t).Seconds()` against a
constant; the zero time is `0`).  Byte strings are modelled as `String` /
`List Char`; every rendered blob in the claims is ASCII, where the byte
length and the character count coincide.

Go maps used by the source are only ever read through exact-key lookup
(the code iterates slices, never maps), so they are embedded as
association lists with insert-by-prepending (shadowing) semantics.

Pointer identity, which the source uses to share one `FSCard` between a
board's `cards/` collection and its lists, is embedded as an arena of
card nodes with `Nat` references, mirroring the Go heap.
-/

namespace Trellofs

/-! ## Association lists standing for Go maps (lookup-only usage) -/

/-- Lookup in a Go map modelled as an association list: the most recently
inserted binding for a key shadows older ones. -/
def alookup {β : Type} (m : List (String × β)) (k : String) : Option β :=
  match m with
  | [] => none
  | (k2, v) :: rest => if k2 = k then some v else alookup rest k

/-! ## Remote snapshot records (src/trello) -/

/-- `trello.CardLabel` (src/trello/cards.go). -/
structure CardLabel where
  id : String
  name : String
deriving DecidableEq

/-- `trello.Card` (src/trello/cards.go).  The Go struct also carries a
`Board *Board` back-reference without a json tag; it is reflected in
`Card.fields` below but, being display-only, is not stored here. -/
structure Card where
  id : String
  name : String
  desc : String
  listID : String
  boardID : String
  memberIDs : List String
  labels : List CardLabel
  due : String
  dueComplete : Bool
  lastActive : String
deriving DecidableEq

/-- `trello.Board` (src/trello/boards.go). -/
structure BoardRec where
  id : String
  name : String
  desc : String
  descData : String
  closed : Bool
deriving DecidableEq

/-- `trello.Workspace` (src/trello/workspaces.go). -/
structure WorkspaceRec where
  id : String
  name : String
  displayName : String
  desc : String
deriving DecidableEq

/-! ## The field renderer `getMeta` (src/fs/meta.go)

`getMeta` walks a record's struct fields by reflection.  For each field it
reads the `json` struct tag and the field's reflected type, and switches
on `reflect.Type.Name()`.  The `GoValue` type below carries one field's
static Go type together with its value. -/

/-- A value held by one struct field of a trello record, tagged with its
static Go type. -/
inductive GoValue where
  | vString (s : String)
  | vBool (b : Bool)
  | vStringSlice (elems : List String)
  | vLabelSlice (elems : List CardLabel)
  | vBoardPtr
deriving DecidableEq

/-- `reflect.Type.Name()` of the field's Go type: a defined (named) type
such as `string` or `bool` yields its name; a non-defined composite type
such as `[]string`, `[]CardLabel` or `*Board` yields the empty string
(Go reflect semantics). -/
def GoValue.typeName : GoValue → String
  | .vString _ => "string"
  | .vBool _ => "bool"
  | .vStringSlice _ => ""
  | .vLabelSlice _ => ""
  | .vBoardPtr => ""

/-- The Go type assertion `fieldVal.(string)`; only evaluated under the
guard `typeName = "string"`, which forces the `vString` constructor. -/
def GoValue.asString : GoValue → String
  | .vString s => s
  | _ => ""

/-- The Go type assertion `fieldVal.(bool)`; only evaluated under the
guard `typeName = "bool"`. -/
def GoValue.asBool : GoValue → Bool
  | .vBool b => b
  | _ => false

/-- The Go type assertion `fieldVal.([]string)`; only evaluated under the
guard `typeName = "[]string"`. -/
def GoValue.asStringSlice : GoValue → List String
  | .vStringSlice xs => xs
  | _ => []

/-- One reflected struct field: `reflect.StructField.Name`, the `json`
tag, and the value. -/
structure GoField where
  name : String
  jsonTag : String
  val : GoValue
deriving DecidableEq

/-- `fs.MetaEntry` (src/fs/meta.go): a named rendered blob. -/
structure MetaEntry where
  name : String
  contents : String
deriving DecidableEq

/-- The string-list rendering loop of `getMeta`:
`for _, entry := range arr { contentStr += fmt.Sprintf("%s\n", entry) }`. -/
def joinLines (xs : List String) : String :=
  xs.foldl (fun acc e => acc ++ e ++ "\x0a") ""

/-- The body of `getMeta`'s per-field loop: skip fields whose json tag is
empty or `-`, then switch on `reflect.Type.Name()` of the field type. -/
def getMetaField (f : GoField) : Option MetaEntry :=
  if f.jsonTag = "" ∨ f.jsonTag = "-" then none
  else
    let tn := f.val.typeName
    if tn = "string" then some ⟨f.name, f.val.asString⟩
    else if tn = "bool" then
      some ⟨f.name, if f.val.asBool then "true" else "false"⟩
    else if tn = "[]string" then some ⟨f.name, joinLines f.val.asStringSlice⟩
    else none

/-- `fs.getMeta` (src/fs/meta.go) applied to a record given as its
reflected field list, in struct declaration order. -/
def getMeta (fields : List GoField) : List MetaEntry :=
  fields.filterMap getMetaField

/-- The reflected field list of `trello.Card`, in declaration order, with
the json tags of the source. -/
def Card.fields (c : Card) : List GoField :=
  [ ⟨"ID", "id", .vString c.id⟩,
    ⟨"Name", "name", .vString c.name⟩,
    ⟨"Desc", "desc", .vString c.desc⟩,
    ⟨"ListID", "idList", .vString c.listID⟩,
    ⟨"BoardID", "idBoard", .vString c.boardID⟩,
    ⟨"MemberIDs", "idMembers", .vStringSlice c.memberIDs⟩,
    ⟨"Labels", "labels", .vLabelSlice c.labels⟩,
    ⟨"Due", "due", .vString c.due⟩,
    ⟨"DueComplete", "dueComplete", .vBool c.dueComplete⟩,
    ⟨"LastActive", "dateLastActivity", .vString c.lastActive⟩,
    ⟨"Board", "", .vBoardPtr⟩ ]

/-- `getMeta(*node.Card)` as invoked by `FSCard.Update`. -/
def Card.getMeta (c : Card) : List MetaEntry :=
  Trellofs.getMeta c.fields

/-! ## Card field files and the card node (src/fs/card.go)

`FSCardMetaFile` holds its rendered contents fixed at creation time.
`FSCard` owns its field-file children.  The Go node also carries a
`*trello.Card`; the record is embedded here by value.  (In the Go source
every card created in one `Update` batch shares a pointer to the range
loop variable `card`; no claim treated here depends on the contents of a
batch with more than one new card, and where record contents matter —
the single-card scenario of the spec and the per-record renderer — the
by-value embedding agrees with the source.) -/

/-- `fs.FSCardMetaFile`: name, fixed contents, composite remote key, and
the `Size` attribute set at creation (`uint64(len(entry.Contents))`). -/
structure FSCardMetaFile where
  name : String
  contents : String
  trelloID : String
  size : Nat
deriving DecidableEq

/-- `fs.FSCard`: the card node.  `lastUpdate` is the Go zero time `0` at
creation; `nodeID` is `0` until `refreshNode` assigns an inode id. -/
structure FSCard where
  name : String
  trelloID : String
  nodeID : Nat
  lastUpdate : Int
  card : Card
  metaFiles : List FSCardMetaFile
  byName : List (String × FSCardMetaFile)
  byID : List (String × FSCardMetaFile)
deriving DecidableEq

/-- The `FSCard` literal built by `FSBoardCardsDirMeta.Update` and
`FSList.Update` for a newly observed card record. -/
def mkCardNode (c : Card) : FSCard :=
  ⟨c.name, c.id, 0, 0, c, [], [], []⟩

/-- `BaseFSNode.shouldUpdate` (src/fs/base.go): seconds elapsed since
`lastUpdate` compared against the variant's interval. -/
def baseShouldUpdate (lastUpdate now interval : Int) : Bool :=
  decide (interval ≤ now - lastUpdate)

/-- `FSCard.ShouldUpdate`: interval 30 seconds. -/
def FSCard.shouldUpdate (node : FSCard) (now : Int) : Bool :=
  baseShouldUpdate node.lastUpdate now 30

/-- The per-entry loop of `FSCard.Update`: entries already present in
`ByName` are skipped; otherwise a new `FSCardMetaFile` is created with
remote key `<card>/_meta/<field>`, appended to `MetaFiles`, and recorded
in `ByName` and `ByID`.  Returns the updated node and the new nodes in
creation order.  `FSCard.Update` never calls `markUpdated`. -/
def cardUpdateLoop (node : FSCard) (entries : List MetaEntry) :
    FSCard × List FSCardMetaFile :=
  match entries with
  | [] => (node, [])
  | e :: rest =>
    match alookup node.byName e.name with
    | some _ => cardUpdateLoop node rest
    | none =>
      let tid := node.trelloID ++ "/_meta/" ++ e.name
      let mf : FSCardMetaFile := ⟨e.name, e.contents, tid, e.contents.length⟩
      let node2 : FSCard :=
        { node with
            metaFiles := node.metaFiles ++ [mf]
            byName := (e.name, mf) :: node.byName
            byID := (tid, mf) :: node.byID }
      let res := cardUpdateLoop node2 rest
      (res.1, mf :: res.2)

/-- `FSCard.Update` (src/fs/card.go): one renderer pass over the card's
already-fetched record; creates one field file per rendered entry not yet
materialized.  The card's `lastUpdate` is not advanced. -/
def FSCard.update (node : FSCard) : FSCard × List FSCardMetaFile :=
  cardUpdateLoop node node.card.getMeta

/-- `FSCard.LookupChild`: linear scan of `MetaFiles` by name. -/
def FSCard.lookupChild (node : FSCard) (nm : String) : Option FSCardMetaFile :=
  node.metaFiles.find? (fun mf => mf.name = nm)

/-! ## Field-file reads (src/fs/card.go `FSCardMetaFile.ReadAt`)

The read returns the copied bytes together with the end-of-data flag
(`io.EOF`).  The kernel never sends a negative offset, so the offset is a
`Nat`. -/

/-- `FSCardMetaFile.ReadAt`: if the offset is past the content length the
result is `(nothing, EOF)`; otherwise `copy` transfers
`min (buffer length) (remaining)` bytes and `io.EOF` is returned exactly
when the copy count is short of the buffer length. -/
def metaFileReadAt (contents : List Char) (dstLen offset : Nat) :
    List Char × Bool :=
  if contents.length < offset then ([], true)
  else
    let data := (contents.drop offset).take dstLen
    (data, decide (data.length < dstLen))

/-! ## Directory listing (the shared `ReadDir` loop)

Every directory variant's `ReadDir` repeats the same loop (board.go,
list.go, workspace.go, card.go, fs.go): starting at `offset`, serialize a
dirent for child `i` with continuation offset `i+1` into the remaining
buffer space via `fuseutil.WriteDirent`, stop without advancing the first
time `WriteDirent` returns 0 (entry does not fit). -/

/-- The number of bytes `fuseutil.WriteDirent` emits for a name: a
24-byte `fuse_dirent` header plus the name, padded to an 8-byte
boundary.  `WriteDirent` returns 0 when the remaining buffer is smaller
than this. -/
def direntSize (name : String) : Nat :=
  let record := 24 + name.length
  record + (8 - record % 8) % 8

/-- One child as fed to the listing loop: name, inode id, and whether the
dirent type is `DT_Directory` (else `DT_File`). -/
structure DirChild where
  name : String
  inode : Nat
  isDir : Bool
deriving DecidableEq

/-- One serialized directory entry as observed by the caller. -/
structure Dirent where
  name : String
  inode : Nat
  isDir : Bool
  offset : Nat
deriving DecidableEq

/-- The listing loop over the not-yet-listed children: `i` is the
absolute child index, `space` the remaining buffer capacity. -/
def readDirLoop (children : List DirChild) (space i : Nat) : List Dirent :=
  match children with
  | [] => []
  | c :: rest =>
    let sz := direntSize c.name
    if sz ≤ space then
      ⟨c.name, c.inode, c.isDir, i + 1⟩ :: readDirLoop rest (space - sz) (i + 1)
    else []

/-- A directory node's `ReadDir(dst, offset)` over its stable child
sequence, with `cap` the destination buffer's size: the entries written.
This is the loop of `FSBoardCardsDirMeta.ReadDir` (src/fs/board.go) and
of every other directory variant. -/
def fsReadDir (children : List DirChild) (cap offset : Nat) : List Dirent :=
  readDirLoop (children.drop offset) cap offset

/-- The `bytes_written` return value of the loop. -/
def fsReadDirBytes (children : List DirChild) (cap offset : Nat) : Nat :=
  ((fsReadDir children cap offset).map (fun e => direntSize e.name)).sum

/-- The entries a fully successful listing of `children` starting at
absolute index `i` produces: child `i + k` carries continuation offset
`i + k + 1`. -/
def expectedEnts (children : List DirChild) (i : Nat) : List Dirent :=
  match children with
  | [] => []
  | c :: rest => ⟨c.name, c.inode, c.isDir, i + 1⟩ :: expectedEnts rest (i + 1)

/-- Total serialized size of a child list. -/
def sumSizes (children : List DirChild) : Nat :=
  (children.map (fun c => direntSize c.name)).sum

/-! ## The workspace node (src/fs/workspace.go)

`FSWorkspace.Update` fetches the workspace's boards and merges them by
remote id into `Boards`/`ByID`/`ByName`.  The `FSBoard` children carry
rich state of their own; at the workspace level only the fields the
workspace's own operations read are embedded. -/

/-- An `FSBoard` child as seen from its workspace parent: path-segment
name, remote id, and the creating record. -/
structure WSBoard where
  name : String
  trelloID : String
  record : BoardRec
deriving DecidableEq

/-- `fs.FSWorkspace`: child sequence, the two indices, and the refresh
timestamp. -/
structure FSWorkspace where
  name : String
  trelloID : String
  lastUpdate : Int
  boards : List WSBoard
  byID : List (String × WSBoard)
  byName : List (String × WSBoard)
deriving DecidableEq

/-- `FSWorkspace.ShouldUpdate`: interval 60 seconds. -/
def FSWorkspace.shouldUpdate (node : FSWorkspace) (now : Int) : Bool :=
  baseShouldUpdate node.lastUpdate now 60

/-- The merge loop of `FSWorkspace.Update`: records whose id is already
in `ByID` are skipped; a new record is appended to `Boards` and recorded
in `ByID` and `ByName` (a same-named record overwrites the `ByName`
binding). -/
def wsUpdateLoop (node : FSWorkspace) (recs : List BoardRec) :
    FSWorkspace × List WSBoard :=
  match recs with
  | [] => (node, [])
  | b :: rest =>
    if (alookup node.byID b.id).isSome then wsUpdateLoop node rest
    else
      let nb : WSBoard := ⟨b.name, b.id, b⟩
      let node2 : FSWorkspace :=
        { node with
            boards := node.boards ++ [nb]
            byID := (b.id, nb) :: node.byID
            byName := (b.name, nb) :: node.byName }
      let res := wsUpdateLoop node2 rest
      (res.1, nb :: res.2)

/-- `FSWorkspace.Update` (src/fs/workspace.go): on fetch failure the
method returns the error before touching any state and does not call
`markUpdated`; on success it merges the records and advances
`lastUpdate`. -/
def FSWorkspace.update (node : FSWorkspace)
    (fetch : Except String (List BoardRec)) (now : Int) :
    FSWorkspace × List WSBoard × Option String :=
  match fetch with
  | .error e => (node, [], some e)
  | .ok recs =>
    let res := wsUpdateLoop node recs
    ({ res.1 with lastUpdate := now }, res.2, none)

/-- `FSWorkspace.LookupChild`: linear scan of the `Boards` sequence by
name; the first match wins. -/
def FSWorkspace.lookupChild (node : FSWorkspace) (nm : String) :
    Option WSBoard :=
  node.boards.find? (fun b => b.name = nm)

/-- `FSWorkspace.ReadDir`: the shared listing loop over the `Boards`
sequence.  (Inode ids are assigned in place by `refreshNode` through the
shared node pointers; they play no role in the listing facts proved
here, so the dirent inode field is not tracked at this level.) -/
def FSWorkspace.readDir (node : FSWorkspace) (cap offset : Nat) :
    List Dirent :=
  fsReadDir (node.boards.map (fun b => ⟨b.name, 0, true⟩)) cap offset

/-! ## The inode table (src/fs/fs.go)

`trelloFS` keeps `inodes []FSNode`, `freeInodes []fuseops.InodeID`, and
`byID map[string]InodeID`.  `NewTrelloFS` builds the table as
`make([]FSNode, RootInodeID+1)` — slot 0 nil, slot 1 (the reserved
`fuseops.RootInodeID`) the root — with `freeInodes` and `byID` empty.
The allocation loop of `refreshNode` pops the most recently freed slot
if any exist, else appends at index `len(inodes)`; nothing in the
source ever pushes onto `freeInodes`. -/

/-- The inode table, generic in the stored node payload. -/
structure InodeTable (α : Type) where
  inodes : List (Option α)
  freeInodes : List Nat
  byID : List (String × Nat)
deriving DecidableEq

/-- `fuseops.RootInodeID`. -/
def rootInodeID : Nat := 1

/-- The table as built by `NewTrelloFS`: `[nil, root]`, no free slots,
empty remote-key index. -/
def initTable {α : Type} (root : α) : InodeTable α :=
  ⟨[none, some root], [], []⟩

/-- One iteration of `refreshNode`'s allocation loop: reuse the top of
the free stack (`freeInodes[numFree-1]`) when it is non-empty, else
append a new slot at `len(inodes)`; record the node's remote key in
`byID` and return the assigned id (`n.SetNodeID(id)`). -/
def allocOne {α : Type} (tbl : InodeTable α) (tid : String) (n : α) :
    InodeTable α × Nat :=
  match tbl.freeInodes.getLast? with
  | some fid =>
    (⟨tbl.inodes.set fid (some n), tbl.freeInodes.dropLast,
      (tid, fid) :: tbl.byID⟩, fid)
  | none =>
    (⟨tbl.inodes ++ [some n], tbl.freeInodes,
      (tid, tbl.inodes.length) :: tbl.byID⟩, tbl.inodes.length)

/-- The full allocation loop of `refreshNode` over the nodes returned by
a successful `Update`, returning the table and the assigned ids in
order. -/
def allocAll {α : Type} (tbl : InodeTable α) (ns : List (String × α)) :
    InodeTable α × List Nat :=
  match ns with
  | [] => (tbl, [])
  | (tid, n) :: rest =>
    ((allocAll (allocOne tbl tid n).1 rest).1,
     (allocOne tbl tid n).2 :: (allocAll (allocOne tbl tid n).1 rest).2)

/-- `trelloFS.refreshNode` specialized to a workspace node whose
`ShouldUpdate` returned true: run `Update`; on error, log and return
with the table untouched; on success, allocate an inode for every new
node.  (`SetNodeID` writes the id into the shared node through its
pointer; the ids are the list returned by `allocAll`.) -/
def refreshWorkspaceNode (tbl : InodeTable WSBoard) (ws : FSWorkspace)
    (fetch : Except String (List BoardRec)) (now : Int) :
    InodeTable WSBoard × FSWorkspace :=
  let r := ws.update fetch now
  match r.2.2 with
  | some _ => (tbl, r.1)
  | none => ((allocAll tbl (r.2.1.map (fun b => (b.trelloID, b)))).1, r.1)

/-- A sequence of successful refreshes over one mount's lifetime, each
contributing its batch of new nodes: the resulting table. -/
def applyBatches {α : Type} (tbl : InodeTable α)
    (batches : List (List (String × α))) : InodeTable α :=
  match batches with
  | [] => tbl
  | b :: rest => applyBatches (allocAll tbl b).1 rest

/-- The inode ids assigned over a sequence of refreshes, in allocation
order. -/
def applyBatchesIds {α : Type} (tbl : InodeTable α)
    (batches : List (List (String × α))) : List Nat :=
  match batches with
  | [] => []
  | b :: rest =>
    let r := allocAll tbl b
    r.2 ++ applyBatchesIds r.1 rest

/-! ## The kernel-facing `ReadFile` dispatch (src/fs/fs.go, base.go)

`trelloFS.ReadFile` panics when the inode id is out of range, then calls
the node's `ReadAt`.  Only `FSCardMetaFile` overrides `ReadAt`; every
directory variant inherits `BaseFSNode.ReadAt`, which returns `(0, nil)`.
`io.EOF` from a field-file read is mapped to a nil error, so both
outcomes surface to the kernel as a completed read. -/

/-- The node variants of the tree (`TrelloTreeRoot`, `FSWorkspace`,
`FSBoard`, `FSBoardCardsDirMeta`, `FSBoardListsDirMeta`, `FSList`,
`FSCard` are directories; `FSCardMetaFile` is the only file). -/
inductive FSNodeKind where
  | root
  | workspace
  | board
  | metaCardsDir
  | metaListsDir
  | list
  | card
  | metaFile
deriving DecidableEq

/-- A node as seen by the `ReadAt` dispatch: its variant and, for a
field file, its fixed contents. -/
structure FSAny where
  kind : FSNodeKind
  contents : String
deriving DecidableEq

/-- `ReadAt` dispatch: `FSCardMetaFile.ReadAt` for the file variant,
`BaseFSNode.ReadAt` — `return 0, nil` — for every other variant. -/
def FSAny.readAt (n : FSAny) (dstLen offset : Nat) : List Char × Bool :=
  match n.kind with
  | .metaFile => metaFileReadAt n.contents.data dstLen offset
  | _ => ([], false)

/-- The outcome of a `ReadFile` request. -/
inductive ReadFileOutcome where
  | fatal
  | ok (bytesRead : Nat)
deriving DecidableEq

/-- `trelloFS.ReadFile` (src/fs/fs.go): panic on an out-of-range inode
id, panic on dereferencing a nil table slot, otherwise delegate to the
node's `ReadAt` and report the copied byte count; a nil or `io.EOF`
error both complete the request. -/
def trelloFSReadFile (inodes : List (Option FSAny))
    (id dstLen offset : Nat) : ReadFileOutcome :=
  if id < inodes.length then
    match inodes.getD id none with
    | some n => .ok (n.readAt dstLen offset).1.length
    | none => .fatal
  else .fatal

/-! ## The board's shared card graph (src/fs/board.go, src/fs/list.go)

An `FSBoard` owns `Cards`/`ByCardID`/`ByCardName` (the `cards/`
collection's backing store) and `Lists`/`ByListID`/`ByListName`; each
`FSList` owns its own `Cards`/`ByID`/`ByName`.  All of these hold
`*FSCard` pointers into one heap, which is embedded as an arena of
`FSCard` nodes addressed by `Nat` references, so that the sharing of one
card node between the two collections is expressible. -/

/-- `fs.FSList` as referenced from its board: its own child references
and indices. -/
structure ListState where
  name : String
  trelloID : String
  cards : List Nat
  byID : List (String × Nat)
  byName : List (String × Nat)
  lastUpdate : Int
deriving DecidableEq

/-- The card-sharing-relevant state of one `FSBoard` together with the
card-node heap: the board's `cards/` backing store and its lists. -/
structure BoardState where
  arena : List FSCard
  boardCards : List Nat
  byCardID : List (String × Nat)
  byCardName : List (String × Nat)
  lists : List ListState
  cardsDirLastUpdate : Int
deriving DecidableEq

/-- Dereference a card-node pointer. -/
def BoardState.nodeAt (s : BoardState) (ref : Nat) : FSCard :=
  s.arena.getD ref (mkCardNode ⟨"", "", "", "", "", [], [], "", false, ""⟩)

/-- The list at index `j` of the board's `Lists` sequence. -/
def BoardState.listAt (s : BoardState) (j : Nat) : ListState :=
  s.lists.getD j ⟨"", "", [], [], [], 0⟩

/-- The body of `FSBoardCardsDirMeta.Update`'s creation branch: a fresh
`FSCard` is allocated on the heap and appended to the board's `Cards`
sequence and both board indices. -/
def registerBoardCard (s : BoardState) (c : Card) : BoardState :=
  { s with
      arena := s.arena ++ [mkCardNode c]
      boardCards := s.boardCards ++ [s.arena.length]
      byCardID := (c.id, s.arena.length) :: s.byCardID
      byCardName := (c.name, s.arena.length) :: s.byCardName }

/-- The merge loop of `FSBoardCardsDirMeta.Update` (src/fs/board.go):
records already present in the board's `ByCardID` are skipped; a new
record gets a fresh `FSCard` appended to the heap, to the board's
`Cards` sequence, and to both board indices.  Returns the new state and
the references of the new nodes in creation order. -/
def cardsDirUpdateLoop (s : BoardState) (recs : List Card) :
    BoardState × List Nat :=
  match recs with
  | [] => (s, [])
  | c :: rest =>
    match alookup s.byCardID c.id with
    | some _ => cardsDirUpdateLoop s rest
    | none =>
      ((cardsDirUpdateLoop (registerBoardCard s c) rest).1,
       s.arena.length :: (cardsDirUpdateLoop (registerBoardCard s c) rest).2)

/-- `FSBoardCardsDirMeta.Update` on a successful `board.GetCards` fetch:
merge, then `markUpdated` on the `cards/` collection node. -/
def cardsDirUpdate (s : BoardState) (recs : List Card) (now : Int) :
    BoardState × List Nat :=
  let res := cardsDirUpdateLoop s recs
  ({ res.1 with cardsDirLastUpdate := now }, res.2)

/-- The body of `FSList.Update`'s second guard (src/fs/list.go lines
105-112): the node reference is added to list `j`'s
`Cards`/`ByID`/`ByName` and appended again to the board's `Cards` and
both board indices. -/
def linkCard (s : BoardState) (j : Nat) (c : Card) (ref : Nat) :
    BoardState :=
  { s with
      boardCards := s.boardCards ++ [ref]
      byCardID := (c.id, ref) :: s.byCardID
      byCardName := (c.name, ref) :: s.byCardName
      lists := s.lists.set j
        { s.listAt j with
            cards := (s.listAt j).cards ++ [ref]
            byID := (c.id, ref) :: (s.listAt j).byID
            byName := (c.name, ref) :: (s.listAt j).byName } }

/-- The merge loop of `FSList.Update` (src/fs/list.go) for the list at
index `j`: a record already in the board's `ByCardID` reuses that very
node (`newCard = boardNode.ByCardID[card.ID]`); otherwise a fresh
`FSCard` is allocated on the heap and returned among the new nodes.
Then, unless the record's id is already in the list's own `ByID`, the
shared reference is linked into the list's collections and appended
again to the board's. -/
def listUpdateLoop (s : BoardState) (j : Nat) (recs : List Card) :
    BoardState × List Nat :=
  match recs with
  | [] => (s, [])
  | c :: rest =>
    match alookup s.byCardID c.id with
    | some ref =>
      if (alookup (s.listAt j).byID c.id).isSome then listUpdateLoop s j rest
      else listUpdateLoop (linkCard s j c ref) j rest
    | none =>
      if (alookup (({ s with arena := s.arena ++ [mkCardNode c]
          } : BoardState).listAt j).byID c.id).isSome then
        ((listUpdateLoop { s with arena := s.arena ++ [mkCardNode c] } j
            rest).1,
         s.arena.length :: (listUpdateLoop
            { s with arena := s.arena ++ [mkCardNode c] } j rest).2)
      else
        ((listUpdateLoop (linkCard { s with arena := s.arena ++ [mkCardNode c] }
            j c s.arena.length) j rest).1,
         s.arena.length :: (listUpdateLoop
            (linkCard { s with arena := s.arena ++ [mkCardNode c] } j c
              s.arena.length) j rest).2)

/-- `markUpdated` on the `FSList` node at index `j`. -/
def touchListTime (s : BoardState) (j : Nat) (t : Int) : BoardState :=
  { s with lists := s.lists.set j { s.listAt j with lastUpdate := t } }

/-- `FSList.Update` on a successful `list.GetCards` fetch: merge, then
`markUpdated` on the list node. -/
def listUpdate (s : BoardState) (j : Nat) (recs : List Card) (now : Int) :
    BoardState × List Nat :=
  (touchListTime (listUpdateLoop s j recs).1 j now,
   (listUpdateLoop s j recs).2)

/-- `FSBoardCardsDirMeta.LookupChild`: linear scan of the board's
`Cards` sequence by node name; returns the first matching node
(pointer). -/
def BoardState.cardsDirLookup (s : BoardState) (nm : String) : Option Nat :=
  s.boardCards.find? (fun ref => (s.nodeAt ref).name = nm)

/-- `FSList.LookupChild`: linear scan of the list's `Cards` sequence by
node name. -/
def BoardState.listLookup (s : BoardState) (j : Nat) (nm : String) :
    Option Nat :=
  (s.listAt j).cards.find? (fun ref => (s.nodeAt ref).name = nm)

/-- A board state fresh from `FSBoard.Update` and
`FSBoardListsDirMeta.Update`: no card has been materialized yet and
every list is newly created (empty collections). -/
def freshBoard (ls : List ListState) : BoardState :=
  ⟨[], [], [], [], ls, 0⟩

/-! ## The end-to-end scenario of the specification (§8)

Workspace `W` (id `w1`), board `B` (id `b1`), list `L` (id `l1`), one
card `C` (id `c1`) with `dueComplete = false` and no further field data,
reported both by `list_cards_of_board(b1)` and `list_cards_of_list(l1)`. -/

/-- The scenario's card record `C`. -/
def cardC : Card :=
  ⟨"c1", "C", "", "l1", "b1", [], [], "", false, ""⟩

/-- The card node materialized for `C` by the board's `cards/` refresh
(`FSBoardCardsDirMeta.Update`). -/
def cardNodeC : FSCard := mkCardNode cardC

/-- The card node after its own refresh (`FSCard.Update`). -/
def refreshedCardC : FSCard := (FSCard.update cardNodeC).1

/-- The scenario's fresh list node `L`. -/
def listL : ListState := ⟨"L", "l1", [], [], [], 0⟩

/-! # Theorems -/

/-! ## Claim C2 — the field renderer -/

/-- Claim C2 evaluated where it fails.  A json-tagged `[]string` field —
`MemberIDs` of a card — produces NO blob: `reflect.Type.Name()` of the
non-defined composite type `[]string` is the empty string, so the
renderer's own `case "[]string"` branch can never match and the field
falls through to the silently-skipped default.  The second conjunct
shows the renderer's string-list branch would have produced exactly the
bytes the claim describes (`"a\nb\n"`), and the third shows the full
card renders every recognized field except the two slice-typed ones. -/
theorem string_list_field_dropped :
    getMeta [⟨"MemberIDs", "idMembers", GoValue.vStringSlice ["a", "b"]⟩] = []
    ∧ joinLines ["a", "b"] = "a\nb\n"
    ∧ (Card.getMeta ⟨"c1", "C", "", "l1", "b1", ["a", "b"], [], "", false, ""⟩).map
        MetaEntry.name
      = ["ID", "Name", "Desc", "ListID", "BoardID", "Due", "DueComplete",
         "LastActive"] := by
  refine ⟨rfl, rfl, rfl⟩

/-! ## Claim C3 — the scenario's `dueComplete` field file -/

/-- Claim C3 counterexample: after the card node under `/W/B/cards/C` is
refreshed, no field file is named `dueComplete`.  `getMeta` names each
blob after the Go struct field (`reflect.StructField.Name`), not after
the json tag, so the file is `DueComplete`. -/
theorem scenario_no_dueComplete_file :
    (refreshedCardC.metaFiles.map FSCardMetaFile.name)
      = ["ID", "Name", "Desc", "ListID", "BoardID", "Due", "DueComplete",
         "LastActive"]
    ∧ refreshedCardC.lookupChild "dueComplete" = none := by
  refine ⟨rfl, rfl⟩

/-- Claim C3 as amended: the refreshed card directory contains a field
file whose name is `DueComplete` (the Go struct field name) and whose
full contents are the 5 bytes `false`. -/
theorem scenario_DueComplete_file :
    refreshedCardC.lookupChild "DueComplete"
      = some ⟨"DueComplete", "false", "c1/_meta/DueComplete", 5⟩
    ∧ "false".length = 5 := by
  refine ⟨rfl, rfl⟩

/-! ## Claim C9 — card refresh is idempotent -/

/-- Unfolding lemma for `alookup` on a non-empty map. -/
theorem alookup_cons {β : Type} (k k2 : String) (v : β)
    (m : List (String × β)) :
    alookup ((k2, v) :: m) k = if k2 = k then some v else alookup m k := rfl

/-- Inserting a binding never removes a key from a Go map. -/
theorem alookup_isSome_cons {β : Type} (m : List (String × β))
    (k k2 : String) (v : β) (h : (alookup m k).isSome) :
    (alookup ((k2, v) :: m) k).isSome := by
  rw [alookup_cons]
  by_cases hk : k2 = k <;> simp [hk, h]

/-- `FSCard.Update`'s loop never touches the node's identity fields, its
refresh timestamp, or its card record. -/
theorem cardUpdateLoop_preserve (entries : List MetaEntry) (node : FSCard) :
    (cardUpdateLoop node entries).1.name = node.name ∧
    (cardUpdateLoop node entries).1.trelloID = node.trelloID ∧
    (cardUpdateLoop node entries).1.nodeID = node.nodeID ∧
    (cardUpdateLoop node entries).1.lastUpdate = node.lastUpdate ∧
    (cardUpdateLoop node entries).1.card = node.card := by
  induction entries generalizing node with
  | nil => exact ⟨rfl, rfl, rfl, rfl, rfl⟩
  | cons e rest ih =>
    rw [cardUpdateLoop]
    cases h : alookup node.byName e.name with
    | some v => exact ih node
    | none => exact ih _

/-- A key present in `ByName` stays present through the update loop. -/
theorem cardUpdateLoop_byName_mono (entries : List MetaEntry)
    (node : FSCard) (k : String) (h : (alookup node.byName k).isSome) :
    (alookup (cardUpdateLoop node entries).1.byName k).isSome := by
  induction entries generalizing node with
  | nil => exact h
  | cons e rest ih =>
    rw [cardUpdateLoop]
    cases h2 : alookup node.byName e.name with
    | some v => exact ih node h
    | none => exact ih _ (alookup_isSome_cons _ _ _ _ h)

/-- After the update loop, every processed entry name is in `ByName`. -/
theorem cardUpdateLoop_complete (entries : List MetaEntry) (node : FSCard) :
    ∀ e ∈ entries,
      (alookup (cardUpdateLoop node entries).1.byName e.name).isSome := by
  induction entries generalizing node with
  | nil => intro e he; exact absurd he (List.not_mem_nil e)
  | cons e0 rest ih =>
    intro e he
    rw [cardUpdateLoop]
    rcases List.mem_cons.mp he with he0 | hrest
    · subst he0
      cases h2 : alookup node.byName e.name with
      | some v =>
        exact cardUpdateLoop_byName_mono rest node e.name (by simp [h2])
      | none =>
        refine cardUpdateLoop_byName_mono rest _ e.name ?_
        simp [alookup_cons]
    · cases h2 : alookup node.byName e0.name with
      | some v => exact ih node e hrest
      | none => exact ih _ e hrest

/-- When every entry is already materialized, the update loop changes
nothing and returns no new nodes. -/
theorem cardUpdateLoop_noop (entries : List MetaEntry) (node : FSCard)
    (h : ∀ e ∈ entries, (alookup node.byName e.name).isSome) :
    cardUpdateLoop node entries = (node, []) := by
  induction entries with
  | nil => rfl
  | cons e rest ih =>
    rw [cardUpdateLoop]
    cases h2 : alookup node.byName e.name with
    | some v => exact ih (fun e2 he2 => h e2 (List.mem_cons_of_mem e he2))
    | none =>
      have := h e (List.mem_cons_self e rest)
      rw [h2] at this
      exact absurd this (by simp)

/-- Claim C9: running `FSCard.Update` a second time over the same card
record returns no new nodes and leaves the node — field files, indices,
everything — unchanged; the first run never advanced `lastUpdate`, so
`ShouldUpdate` still answers true at any access time at least 30 seconds
past the node's creation-time zero timestamp. -/
theorem card_update_idempotent (node : FSCard) (now : Int)
    (hnow : 30 ≤ now - node.lastUpdate) :
    (FSCard.update (FSCard.update node).1).2 = [] ∧
    (FSCard.update (FSCard.update node).1).1 = (FSCard.update node).1 ∧
    (FSCard.update node).1.lastUpdate = node.lastUpdate ∧
    (FSCard.update node).1.shouldUpdate now = true := by
  have hpres := cardUpdateLoop_preserve node.card.getMeta node
  have hcard : (FSCard.update node).1.card = node.card := hpres.2.2.2.2
  have hlast : (FSCard.update node).1.lastUpdate = node.lastUpdate :=
    hpres.2.2.2.1
  have hcomplete := cardUpdateLoop_complete node.card.getMeta node
  have hnoop :
      cardUpdateLoop (FSCard.update node).1 ((FSCard.update node).1.card.getMeta)
        = ((FSCard.update node).1, []) := by
    rw [hcard]
    exact cardUpdateLoop_noop node.card.getMeta (FSCard.update node).1 hcomplete
  refine ⟨?_, ?_, hlast, ?_⟩
  · show (cardUpdateLoop (FSCard.update node).1
      ((FSCard.update node).1.card.getMeta)).2 = []
    rw [hnoop]
  · show (cardUpdateLoop (FSCard.update node).1
      ((FSCard.update node).1.card.getMeta)).1 = (FSCard.update node).1
    rw [hnoop]
  · unfold FSCard.shouldUpdate baseShouldUpdate
    rw [hlast]
    exact decide_eq_true hnow

/-- Witness for `card_update_idempotent` at the scenario's card node and
access time 100 seconds. -/
theorem card_update_idempotent_witness :
    (FSCard.update (FSCard.update cardNodeC).1).2 = [] ∧
    (FSCard.update (FSCard.update cardNodeC).1).1
      = (FSCard.update cardNodeC).1 ∧
    (FSCard.update cardNodeC).1.lastUpdate = cardNodeC.lastUpdate ∧
    (FSCard.update cardNodeC).1.shouldUpdate 100 = true :=
  card_update_idempotent cardNodeC 100 (by decide)

/-! ## Claim C5 — field-file read boundaries -/

/-- Claim C5 counterexample: reading the 5-byte contents `false` at
offset 0 with a buffer of exactly 5 bytes copies all 5 remaining bytes —
the copy reaches the end of the contents — yet returns NO end-of-data
signal, because `FSCardMetaFile.ReadAt` signals `io.EOF` only when the
copy count falls short of the buffer length. -/
theorem readAt_exact_buffer_no_eof :
    metaFileReadAt "false".data 5 0 = ("false".data, false)
    ∧ "false".data.length - 0 = 5 := by
  refine ⟨rfl, rfl⟩

/-- Claim C5 as amended: for a non-empty buffer, a read at an offset
strictly beyond the content length returns no bytes and signals
end-of-data; otherwise the read copies `min (buffer length) (L - offset)`
bytes starting at the offset and signals end-of-data exactly when the
remaining contents are strictly shorter than the buffer (a buffer of
exactly the remaining length gets its bytes without the signal; the
following read at the new offset then returns 0 bytes with the
signal). -/
theorem readAt_spec (contents : List Char) (dstLen offset : Nat)
    (_hdst : 0 < dstLen) :
    (contents.length < offset →
      metaFileReadAt contents dstLen offset = ([], true)) ∧
    (offset ≤ contents.length →
      (metaFileReadAt contents dstLen offset).1
          = (contents.drop offset).take dstLen ∧
      (metaFileReadAt contents dstLen offset).1.length
          = min dstLen (contents.length - offset) ∧
      ((metaFileReadAt contents dstLen offset).2 = true ↔
        contents.length - offset < dstLen)) := by
  unfold metaFileReadAt
  have hlen : ((contents.drop offset).take dstLen).length
      = min dstLen (contents.length - offset) := by
    simp [List.length_take, List.length_drop]
  constructor
  · intro h
    simp [h]
  · intro h
    rw [if_neg (by omega)]
    refine ⟨rfl, hlen, ?_⟩
    simp only [decide_eq_true_eq, hlen]
    omega

/-- Witness for `readAt_spec` at contents `abcde`, buffer length 3,
offset 2. -/
theorem readAt_spec_witness :
    ("abcde".data.length < 2 →
      metaFileReadAt "abcde".data 3 2 = ([], true)) ∧
    (2 ≤ "abcde".data.length →
      (metaFileReadAt "abcde".data 3 2).1 = ("abcde".data.drop 2).take 3 ∧
      (metaFileReadAt "abcde".data 3 2).1.length
          = min 3 ("abcde".data.length - 2) ∧
      ((metaFileReadAt "abcde".data 3 2).2 = true ↔
        "abcde".data.length - 2 < 3)) :=
  readAt_spec "abcde".data 3 2 (by decide)

/-! ## Claim C4 — readdir pagination -/

/-- `sumSizes` on a cons. -/
theorem sumSizes_cons (c : DirChild) (l : List DirChild) :
    sumSizes (c :: l) = direntSize c.name + sumSizes l := rfl

/-- A buffer large enough for every remaining child serializes them
all. -/
theorem readDirLoop_all (children : List DirChild) (space i : Nat)
    (h : sumSizes children ≤ space) :
    readDirLoop children space i = expectedEnts children i := by
  induction children generalizing space i with
  | nil => rfl
  | cons c rest ih =>
    rw [sumSizes_cons] at h
    rw [readDirLoop, expectedEnts, if_pos (by omega)]
    rw [ih (space - direntSize c.name) (i + 1) (by omega)]

/-- A buffer that holds exactly the first `K` remaining children — large
enough for them, too small for one more — serializes exactly those `K`
and stops. -/
theorem readDirLoop_partial (K : Nat) (children : List DirChild)
    (space i : Nat) (hK : K < children.length)
    (h1 : sumSizes (children.take K) ≤ space)
    (h2 : space < sumSizes (children.take (K + 1))) :
    readDirLoop children space i = expectedEnts (children.take K) i := by
  induction K generalizing children space i with
  | zero =>
    cases children with
    | nil => simp at hK
    | cons c rest =>
      rw [List.take_succ_cons, List.take_zero, sumSizes_cons] at h2
      rw [readDirLoop, List.take_zero, expectedEnts,
        if_neg (by simp [sumSizes] at h2 ⊢; omega)]
  | succ K ih =>
    cases children with
    | nil => simp at hK
    | cons c rest =>
      rw [List.take_succ_cons, sumSizes_cons] at h1
      rw [List.take_succ_cons, sumSizes_cons] at h2
      rw [readDirLoop, List.take_succ_cons, expectedEnts,
        if_pos (by omega)]
      rw [ih rest (space - direntSize c.name) (i + 1)
        (by simpa using hK) (by omega) (by omega)]

/-- Serializing all of `l` from index `i` yields one entry per child. -/
theorem expectedEnts_length (l : List DirChild) (i : Nat) :
    (expectedEnts l i).length = l.length := by
  induction l generalizing i with
  | nil => rfl
  | cons c rest ih => rw [expectedEnts]; simp [ih]

/-- The continuation offsets of a full serialization from index `i` are
`i+1, i+2, ...`. -/
theorem expectedEnts_map_offset (l : List DirChild) (i : Nat) :
    (expectedEnts l i).map Dirent.offset = List.range' (i + 1) l.length := by
  induction l generalizing i with
  | nil => rfl
  | cons c rest ih =>
    rw [expectedEnts, List.length_cons, List.range'_succ]
    simp [ih]

/-- The names of a full serialization are the children's names. -/
theorem expectedEnts_map_name (l : List DirChild) (i : Nat) :
    (expectedEnts l i).map Dirent.name = l.map DirChild.name := by
  induction l generalizing i with
  | nil => rfl
  | cons c rest ih => rw [expectedEnts]; simp [ih]

/-- Claim C4: for a directory of `N` children and a first buffer that
holds exactly `K < N` serialized entries, `ReadDir` starting at index 0
writes exactly the first `K` children in sequence order with
continuation offsets `1..K` (the last written entry's offset is `K`),
and a second call starting at offset `K` with a buffer that fits the
rest writes the remaining `N - K` children with offsets `K+1..N`. -/
theorem readdir_pagination (children : List DirChild) (cap cap2 K : Nat)
    (hK : K < children.length)
    (h1 : sumSizes (children.take K) ≤ cap)
    (h2 : cap < sumSizes (children.take (K + 1)))
    (h3 : sumSizes (children.drop K) ≤ cap2) :
    fsReadDir children cap 0 = expectedEnts (children.take K) 0 ∧
    (fsReadDir children cap 0).length = K ∧
    (fsReadDir children cap 0).map Dirent.offset = List.range' 1 K ∧
    fsReadDir children cap2 K = expectedEnts (children.drop K) K ∧
    (fsReadDir children cap2 K).length = children.length - K ∧
    (fsReadDir children cap2 K).map Dirent.offset
      = List.range' (K + 1) (children.length - K) := by
  have hfirst : fsReadDir children cap 0 = expectedEnts (children.take K) 0 := by
    unfold fsReadDir
    rw [List.drop_zero]
    exact readDirLoop_partial K children cap 0 hK h1 h2
  have hsecond : fsReadDir children cap2 K
      = expectedEnts (children.drop K) K := by
    unfold fsReadDir
    exact readDirLoop_all (children.drop K) cap2 K h3
  have htake : (children.take K).length = K := by
    rw [List.length_take]; omega
  have hdrop : (children.drop K).length = children.length - K :=
    List.length_drop K children
  refine ⟨hfirst, ?_, ?_, hsecond, ?_, ?_⟩
  · rw [hfirst, expectedEnts_length, htake]
  · rw [hfirst, expectedEnts_map_offset, htake]
  · rw [hsecond, expectedEnts_length, hdrop]
  · rw [hsecond, expectedEnts_map_offset, hdrop]

/-- Witness for `readdir_pagination`: three children with 32-byte
dirents, a 64-byte first buffer (exactly two entries), and a 32-byte
second buffer. -/
theorem readdir_pagination_witness :
    fsReadDir [⟨"a", 2, true⟩, ⟨"b", 3, true⟩, ⟨"c", 4, true⟩] 64 0
      = expectedEnts ([⟨"a", 2, true⟩, ⟨"b", 3, true⟩,
          (⟨"c", 4, true⟩ : DirChild)].take 2) 0 ∧
    (fsReadDir [⟨"a", 2, true⟩, ⟨"b", 3, true⟩, ⟨"c", 4, true⟩] 64 0).length
      = 2 ∧
    (fsReadDir [⟨"a", 2, true⟩, ⟨"b", 3, true⟩,
        ⟨"c", 4, true⟩] 64 0).map Dirent.offset = List.range' 1 2 ∧
    fsReadDir [⟨"a", 2, true⟩, ⟨"b", 3, true⟩, ⟨"c", 4, true⟩] 32 2
      = expectedEnts ([⟨"a", 2, true⟩, ⟨"b", 3, true⟩,
          (⟨"c", 4, true⟩ : DirChild)].drop 2) 2 ∧
    (fsReadDir [⟨"a", 2, true⟩, ⟨"b", 3, true⟩, ⟨"c", 4, true⟩] 32 2).length
      = [⟨"a", 2, true⟩, ⟨"b", 3, true⟩,
          (⟨"c", 4, true⟩ : DirChild)].length - 2 ∧
    (fsReadDir [⟨"a", 2, true⟩, ⟨"b", 3, true⟩,
        ⟨"c", 4, true⟩] 32 2).map Dirent.offset
      = List.range' (2 + 1)
          ([⟨"a", 2, true⟩, ⟨"b", 3, true⟩,
              (⟨"c", 4, true⟩ : DirChild)].length - 2) :=
  readdir_pagination [⟨"a", 2, true⟩, ⟨"b", 3, true⟩, ⟨"c", 4, true⟩]
    64 32 2 (by decide) (by decide) (by decide) (by decide)

/-! ## Claim C7 — failed refresh mutates nothing -/

/-- Claim C7: when the remote query of a workspace refresh fails, the
update returns the error with no new nodes and the node state — child
sequence, both indices, and `lastUpdate` — exactly as before, and
`refreshNode` leaves the inode table untouched (no allocation, no
remote-key registration), so the node's `ShouldUpdate` answer at any
later time is what it would have been before the attempt. -/
theorem refresh_failure_no_mutation (tbl : InodeTable WSBoard)
    (ws : FSWorkspace) (e : String) (now : Int)
    (fetch : Except String (List BoardRec)) (hf : fetch = .error e) :
    ws.update fetch now = (ws, [], some e) ∧
    refreshWorkspaceNode tbl ws fetch now = (tbl, ws) := by
  subst hf
  exact ⟨rfl, rfl⟩

/-- Witness for `refresh_failure_no_mutation` on a concrete table,
workspace, and failing fetch. -/
theorem refresh_failure_no_mutation_witness :
    FSWorkspace.update ⟨"W", "w1", 7, [], [], []⟩
        (Except.error "boom") 100
      = (⟨"W", "w1", 7, [], [], []⟩, [], some "boom") ∧
    refreshWorkspaceNode (initTable ⟨"W", "w1", ⟨"w1", "W", "", "", false⟩⟩)
        ⟨"W", "w1", 7, [], [], []⟩ (Except.error "boom") 100
      = (initTable ⟨"W", "w1", ⟨"w1", "W", "", "", false⟩⟩,
         ⟨"W", "w1", 7, [], [], []⟩) :=
  refresh_failure_no_mutation
    (initTable ⟨"W", "w1", ⟨"w1", "W", "", "", false⟩⟩)
    ⟨"W", "w1", 7, [], [], []⟩ "boom" 100 (Except.error "boom") rfl

/-! ## Claim C6 — duplicate sibling names -/

/-- `find?` skips a prefix containing no match. -/
theorem find?_append_of_none {α : Type} (p : α → Bool) (l1 l2 : List α)
    (h : l1.find? p = none) : (l1 ++ l2).find? p = l2.find? p := by
  rw [List.find?_append, h, Option.none_or]

/-- Claim C6 counterexample: a fresh workspace whose fetch reports two
records with the same name `X` but distinct ids `b1`, `b2` materializes
BOTH as children: the duplicate appears as a second entry named `X` in
the directory listing, so it is not dropped.  (Lookup does resolve to
the first-observed record.) -/
theorem duplicate_name_listed_twice :
    ((FSWorkspace.update ⟨"W", "w1", 0, [], [], []⟩
        (.ok [⟨"b1", "X", "", "", false⟩, ⟨"b2", "X", "", "", false⟩])
        5).1.boards.map WSBoard.trelloID) = ["b1", "b2"] ∧
    ((FSWorkspace.update ⟨"W", "w1", 0, [], [], []⟩
        (.ok [⟨"b1", "X", "", "", false⟩, ⟨"b2", "X", "", "", false⟩])
        5).1.readDir 64 0).map Dirent.name = ["X", "X"] ∧
    (FSWorkspace.update ⟨"W", "w1", 0, [], [], []⟩
        (.ok [⟨"b1", "X", "", "", false⟩, ⟨"b2", "X", "", "", false⟩])
        5).1.lookupChild "X"
      = some ⟨"X", "b1", ⟨"b1", "X", "", "", false⟩⟩ := by
  refine ⟨rfl, ?_, rfl⟩
  rfl

/-- Claim C6 as amended: when the source reports two records with the
same name but distinct ids, neither id known, under a parent with no
child of that name yet, BOTH records are materialized and appended to
the child sequence — the duplicate appears as an additional entry in the
directory listing — while lookup of the name resolves to the
first-observed record and the name index retains the last-observed
one. -/
theorem duplicate_name_behavior (ws : FSWorkspace) (r1 r2 : BoardRec)
    (now : Int) (cap : Nat)
    (hid : r1.id ≠ r2.id) (hname : r1.name = r2.name)
    (h1 : alookup ws.byID r1.id = none)
    (h2 : alookup ws.byID r2.id = none)
    (hfresh : ∀ b ∈ ws.boards, b.name ≠ r1.name)
    (hcap : sumSizes ((ws.boards
        ++ [(⟨r1.name, r1.id, r1⟩ : WSBoard),
            (⟨r2.name, r2.id, r2⟩ : WSBoard)]).map
          (fun b => (⟨b.name, 0, true⟩ : DirChild))) ≤ cap) :
    (FSWorkspace.update ws (.ok [r1, r2]) now).1.boards
      = ws.boards ++ [⟨r1.name, r1.id, r1⟩, ⟨r2.name, r2.id, r2⟩] ∧
    (FSWorkspace.update ws (.ok [r1, r2]) now).1.lookupChild r1.name
      = some ⟨r1.name, r1.id, r1⟩ ∧
    alookup (FSWorkspace.update ws (.ok [r1, r2]) now).1.byName r1.name
      = some ⟨r2.name, r2.id, r2⟩ ∧
    ((FSWorkspace.update ws (.ok [r1, r2]) now).1.readDir cap 0).map
        Dirent.name
      = ws.boards.map WSBoard.name ++ [r1.name, r1.name] := by
  have hloop : wsUpdateLoop ws [r1, r2]
      = (⟨ws.name, ws.trelloID, ws.lastUpdate,
          (ws.boards ++ [⟨r1.name, r1.id, r1⟩]) ++ [⟨r2.name, r2.id, r2⟩],
          (r2.id, ⟨r2.name, r2.id, r2⟩) :: (r1.id, ⟨r1.name, r1.id, r1⟩)
            :: ws.byID,
          (r2.name, ⟨r2.name, r2.id, r2⟩) :: (r1.name, ⟨r1.name, r1.id, r1⟩)
            :: ws.byName⟩,
         [⟨r1.name, r1.id, r1⟩, ⟨r2.name, r2.id, r2⟩]) := by
    rw [wsUpdateLoop, h1]
    simp only [Option.isSome_none, Bool.false_eq_true, if_false]
    rw [wsUpdateLoop]
    simp only [alookup_cons, if_neg hid, h2, Option.isSome_none,
      Bool.false_eq_true, if_false]
    rfl
  have hupd : (FSWorkspace.update ws (.ok [r1, r2]) now).1
      = ⟨ws.name, ws.trelloID, now,
          ws.boards ++ [⟨r1.name, r1.id, r1⟩, ⟨r2.name, r2.id, r2⟩],
          (r2.id, ⟨r2.name, r2.id, r2⟩) :: (r1.id, ⟨r1.name, r1.id, r1⟩)
            :: ws.byID,
          (r2.name, ⟨r2.name, r2.id, r2⟩) :: (r1.name, ⟨r1.name, r1.id, r1⟩)
            :: ws.byName⟩ := by
    show ({ (wsUpdateLoop ws [r1, r2]).1 with lastUpdate := now }
        : FSWorkspace) = _
    rw [hloop]
    simp
  refine ⟨?_, ?_, ?_, ?_⟩
  · rw [hupd]
  · rw [hupd]
    unfold FSWorkspace.lookupChild
    simp only
    rw [find?_append_of_none]
    · simp
    · rw [List.find?_eq_none]
      intro b hb
      simp [hfresh b hb]
  · rw [hupd]
    simp only [alookup_cons]
    rw [if_pos hname.symm]
  · rw [hupd]
    unfold FSWorkspace.readDir fsReadDir
    simp only [List.drop_zero]
    rw [readDirLoop_all _ cap 0 hcap, expectedEnts_map_name]
    simp [hname]

/-- Witness for `duplicate_name_behavior`: the fresh workspace `W` and
records `(b1, X)`, `(b2, X)`. -/
theorem duplicate_name_behavior_witness :
    (FSWorkspace.update ⟨"W", "w1", 0, [], [], []⟩
        (.ok [⟨"b1", "X", "", "", false⟩, ⟨"b2", "X", "", "", false⟩])
        5).1.boards
      = [] ++ [⟨"X", "b1", ⟨"b1", "X", "", "", false⟩⟩,
          ⟨"X", "b2", ⟨"b2", "X", "", "", false⟩⟩] ∧
    (FSWorkspace.update ⟨"W", "w1", 0, [], [], []⟩
        (.ok [⟨"b1", "X", "", "", false⟩, ⟨"b2", "X", "", "", false⟩])
        5).1.lookupChild "X"
      = some ⟨"X", "b1", ⟨"b1", "X", "", "", false⟩⟩ ∧
    alookup (FSWorkspace.update ⟨"W", "w1", 0, [], [], []⟩
        (.ok [⟨"b1", "X", "", "", false⟩, ⟨"b2", "X", "", "", false⟩])
        5).1.byName "X"
      = some ⟨"X", "b2", ⟨"b2", "X", "", "", false⟩⟩ ∧
    ((FSWorkspace.update ⟨"W", "w1", 0, [], [], []⟩
        (.ok [⟨"b1", "X", "", "", false⟩, ⟨"b2", "X", "", "", false⟩])
        5).1.readDir 64 0).map Dirent.name
      = ([] : List WSBoard).map WSBoard.name ++ ["X", "X"] :=
  duplicate_name_behavior ⟨"W", "w1", 0, [], [], []⟩
    ⟨"b1", "X", "", "", false⟩ ⟨"b2", "X", "", "", false⟩ 5 64
    (by decide) rfl rfl rfl (by simp) (by decide)

/-! ## Claim C10 — inode ids are never freed, never reused -/

/-- Concatenating adjacent ranges. -/
theorem range'_append_adjacent (s m n : Nat) :
    List.range' s m ++ List.range' (s + m) n = List.range' s (m + n) := by
  induction m generalizing s with
  | zero => simp
  | succ m ih =>
    rw [List.range'_succ, Nat.succ_add, List.range'_succ, List.cons_append]
    congr 1
    rw [show s + (m + 1) = s + 1 + m by omega]
    exact ih (s + 1)

/-- With an empty free stack, the allocation loop of `refreshNode`
assigns exactly the next `ns.length` consecutive ids starting at the
table's current length, never pushes onto the free stack, grows the
store by one slot per node, and leaves every existing slot untouched. -/
theorem allocAll_no_free {α : Type} (ns : List (String × α))
    (tbl : InodeTable α) (hfree : tbl.freeInodes = []) :
    (allocAll tbl ns).2 = List.range' tbl.inodes.length ns.length ∧
    (allocAll tbl ns).1.freeInodes = [] ∧
    (allocAll tbl ns).1.inodes.length = tbl.inodes.length + ns.length ∧
    ∀ i, i < tbl.inodes.length →
      (allocAll tbl ns).1.inodes.getD i none = tbl.inodes.getD i none := by
  induction ns generalizing tbl with
  | nil =>
    refine ⟨by simp [allocAll], hfree, by simp [allocAll], ?_⟩
    intro i _
    rfl
  | cons hd rest ih =>
    obtain ⟨tid, n⟩ := hd
    have hone : allocOne tbl tid n
        = (InodeTable.mk (tbl.inodes ++ [some n]) []
            ((tid, tbl.inodes.length) :: tbl.byID), tbl.inodes.length) := by
      unfold allocOne
      rw [hfree]
      rfl
    have hrec := ih (InodeTable.mk (tbl.inodes ++ [some n]) []
      ((tid, tbl.inodes.length) :: tbl.byID)) rfl
    have hrec1 : (allocAll (InodeTable.mk (tbl.inodes ++ [some n]) []
        ((tid, tbl.inodes.length) :: tbl.byID)) rest).2
        = List.range' (tbl.inodes.length + 1) rest.length := by
      have h0 := hrec.1
      simpa using h0
    have hrec3 : (allocAll (InodeTable.mk (tbl.inodes ++ [some n]) []
        ((tid, tbl.inodes.length) :: tbl.byID)) rest).1.inodes.length
        = tbl.inodes.length + 1 + rest.length := by
      have h0 := hrec.2.2.1
      simpa using h0
    rw [allocAll, hone]
    refine ⟨?_, hrec.2.1, ?_, ?_⟩
    · simp only [List.length_cons]
      rw [List.range'_succ, hrec1]
    · simp only [List.length_cons]
      rw [hrec3]
      omega
    · intro i hi
      simp only
      rw [hrec.2.2.2 i (by simp; omega)]
      show (tbl.inodes ++ [some n]).getD i none = tbl.inodes.getD i none
      rw [List.getD_append]
      omega

/-- Iterating `allocAll` over a whole mount's refresh history from a
table with an empty free stack. -/
theorem applyBatches_no_free {α : Type}
    (batches : List (List (String × α))) (tbl : InodeTable α)
    (hfree : tbl.freeInodes = []) :
    applyBatchesIds tbl batches
      = List.range' tbl.inodes.length ((batches.map List.length).sum) ∧
    (applyBatches tbl batches).freeInodes = [] ∧
    (applyBatches tbl batches).inodes.length
      = tbl.inodes.length + ((batches.map List.length).sum) ∧
    ∀ i, i < tbl.inodes.length →
      (applyBatches tbl batches).inodes.getD i none
        = tbl.inodes.getD i none := by
  induction batches generalizing tbl with
  | nil =>
    refine ⟨by simp [applyBatchesIds], hfree, by simp [applyBatches], ?_⟩
    intro i _
    rfl
  | cons b rest ih =>
    have ha := allocAll_no_free b tbl hfree
    have hrec := ih (allocAll tbl b).1 ha.2.1
    rw [applyBatchesIds, applyBatches]
    refine ⟨?_, hrec.2.1, ?_, ?_⟩
    · rw [ha.1, hrec.1, ha.2.2.1, List.map_cons, List.sum_cons,
        range'_append_adjacent]
    · rw [hrec.2.2.1, ha.2.2.1, List.map_cons, List.sum_cons]
      omega
    · intro i hi
      rw [hrec.2.2.2 i (by omega), ha.2.2.2 i hi]

/-- Claim C10: over a mount's whole lifetime no inode id is ever freed —
the free stack starts empty and nothing ever pushes onto it — so every
allocation appends a new slot: the assigned ids are exactly the
consecutive ids from 2 upward, pairwise strictly increasing in creation
order, the reserved root id 1 is never handed out, and the root slot
still holds the root node. -/
theorem inode_ids_monotone {α : Type} (root : α)
    (batches : List (List (String × α))) :
    applyBatchesIds (initTable root) batches
      = List.range' 2 ((batches.map List.length).sum) ∧
    (applyBatchesIds (initTable root) batches).Pairwise (· < ·) ∧
    (applyBatches (initTable root) batches).freeInodes = [] ∧
    (applyBatches (initTable root) batches).inodes.getD rootInodeID none
      = some root ∧
    rootInodeID ∉ applyBatchesIds (initTable root) batches := by
  have h := applyBatches_no_free batches (initTable root) rfl
  have hlen : (initTable root).inodes.length = 2 := rfl
  rw [hlen] at h
  refine ⟨h.1, ?_, h.2.1, ?_, ?_⟩
  · rw [h.1]
    exact List.pairwise_lt_range' 2 _
  · rw [h.2.2.2 rootInodeID (by simp [rootInodeID, initTable])]
    rfl
  · rw [h.1]
    intro hmem
    rw [List.mem_range'_1] at hmem
    simp [rootInodeID] at hmem

/-! ## Claim C8 — reading a non-file inode -/

/-- Claim C8 counterexample: a `ReadFile` request on the root directory
inode (a non-file node) completes as a successful read of 0 bytes —
`BaseFSNode.ReadAt` returns `(0, nil)` for every directory variant — so
it is not treated as a fatal contract violation. -/
theorem read_directory_succeeds_zero :
    trelloFSReadFile [none, some ⟨.root, ""⟩] rootInodeID 8 0
      = .ok 0 := by
  rfl

/-- Claim C8 as amended: a `ReadFile` request on an inode id resolving
to any non-file node completes as a successful 0-byte read (the shared
`BaseFSNode.ReadAt` stub); the fatal, unrecoverable outcome is reserved
for an inode id outside the table's range. -/
theorem read_file_dispatch (inodes : List (Option FSAny))
    (id dstLen offset : Nat) (n : FSAny)
    (hn : inodes.getD id none = some n) (hk : n.kind ≠ .metaFile) :
    trelloFSReadFile inodes id dstLen offset = .ok 0 ∧
    (∀ j, inodes.length ≤ j →
      trelloFSReadFile inodes j dstLen offset = .fatal) := by
  constructor
  · have hid : id < inodes.length := by
      by_contra hge
      rw [List.getD_eq_default _ _ (by omega)] at hn
      exact Option.noConfusion hn
    have hra : n.readAt dstLen offset = ([], false) := by
      obtain ⟨k, cs⟩ := n
      cases k <;> first | rfl | exact absurd rfl hk
    unfold trelloFSReadFile
    rw [if_pos hid, hn]
    show ReadFileOutcome.ok (n.readAt dstLen offset).1.length
        = ReadFileOutcome.ok 0
    rw [hra]
    rfl
  · intro j hj
    unfold trelloFSReadFile
    rw [if_neg (by omega)]

/-- Witness for `read_file_dispatch`: a two-slot table whose slot 1 is a
workspace directory. -/
theorem read_file_dispatch_witness :
    trelloFSReadFile [none, some ⟨.workspace, ""⟩] 1 4 0 = .ok 0 ∧
    (∀ j, ([none, some (⟨.workspace, ""⟩ : FSAny)]).length ≤ j →
      trelloFSReadFile [none, some ⟨.workspace, ""⟩] j 4 0 = .fatal) :=
  read_file_dispatch [none, some ⟨.workspace, ""⟩] 1 4 0
    ⟨.workspace, ""⟩ rfl (by decide)

/-! ## Claim C1 — shared card identity

The proof follows the code: `FSBoardCardsDirMeta.Update` and
`FSList.Update` both key their merge on the board's `ByCardID` index, so
one remote card id is only ever materialized once, and both collections
hold references to that single heap node.  The invariant `BoardInv`
captures the well-formedness the two merge loops maintain. -/

/-- A binding already present survives a shadowing re-insertion of the
same binding: lookups are unchanged at every key. -/
theorem alookup_shadow {β : Type} (m : List (String × β)) (k : String)
    (v : β) (h : alookup m k = some v) (k2 : String) :
    alookup ((k, v) :: m) k2 = alookup m k2 := by
  rw [alookup_cons]
  by_cases hk : k = k2
  · subst hk
    rw [if_pos rfl, h]
  · rw [if_neg hk]

/-- Appending to the arena leaves existing nodes in place. -/
theorem getD_append_lt {α : Type} (l : List α) (x d : α) (i : Nat)
    (h : i < l.length) : (l ++ [x]).getD i d = l.getD i d := by
  rw [List.getD_append]
  exact h

/-- The appended node lives at the old length. -/
theorem getD_append_self {α : Type} (l : List α) (x d : α) :
    (l ++ [x]).getD l.length d = x := by
  simp [List.getD]

/-- Updating list `j` in place, read back at `j`. -/
theorem getD_set_self {α : Type} (l : List α) (i : Nat) (x d : α)
    (h : i < l.length) : (l.set i x).getD i d = x := by
  simp [List.getD, List.getElem?_set_self, h]

/-- Updating list `j` in place leaves the other lists alone. -/
theorem getD_set_ne {α : Type} (l : List α) (i j : Nat) (x d : α)
    (h : i ≠ j) : (l.set i x).getD j d = l.getD j d := by
  simp [List.getD, List.getElem?_set_ne h]

/-- The well-formedness the two merge loops maintain over a board's card
graph, relative to the pool `S` of records the remote source can report:
every heap node was built from a pool record; every heap node is the
value of the board's `ByCardID` index at its own remote id (so ids are
materialized at most once); the index is bounded and id-coherent; every
indexed node sits in the board's `cards/` sequence; the collections hold
only live references; and each list's own index is a restriction of the
board's. -/
structure BoardInv (s : BoardState) (S : List Card) : Prop where
  arenaPool : ∀ ref, ref < s.arena.length →
    ∃ c, c ∈ S ∧ s.nodeAt ref = mkCardNode c
  arenaReg : ∀ ref, ref < s.arena.length →
    alookup s.byCardID (s.nodeAt ref).trelloID = some ref
  byIDOk : ∀ id ref, alookup s.byCardID id = some ref →
    ref < s.arena.length ∧ (s.nodeAt ref).trelloID = id
  boardCover : ∀ id ref, alookup s.byCardID id = some ref →
    ref ∈ s.boardCards
  boardRefs : ∀ ref, ref ∈ s.boardCards → ref < s.arena.length
  listRefs : ∀ j ref, ref ∈ (s.listAt j).cards → ref < s.arena.length
  listByID : ∀ j id ref, alookup (s.listAt j).byID id = some ref →
    alookup s.byCardID id = some ref
  listByIDCover : ∀ j id ref, alookup (s.listAt j).byID id = some ref →
    ref ∈ (s.listAt j).cards

/-- A fresh board with fresh lists satisfies the invariant for any
pool. -/
theorem boardInv_fresh (ls : List ListState) (S : List Card)
    (hls : ∀ l ∈ ls, l.cards = [] ∧ l.byID = [] ∧ l.byName = []) :
    BoardInv (freshBoard ls) S := by
  have hempty : ∀ j, ((freshBoard ls).listAt j).cards = []
      ∧ ((freshBoard ls).listAt j).byID = [] := by
    intro j
    show ((ls.getD j ⟨"", "", [], [], [], 0⟩).cards = [])
      ∧ ((ls.getD j ⟨"", "", [], [], [], 0⟩).byID = [])
    by_cases hj : j < ls.length
    · have hmem : ls.getD j ⟨"", "", [], [], [], 0⟩ ∈ ls := by
        rw [List.getD_eq_getElem ls _ hj]
        exact List.getElem_mem hj
      exact ⟨(hls _ hmem).1, (hls _ hmem).2.1⟩
    · rw [List.getD_eq_default ls _ (by omega)]
      exact ⟨rfl, rfl⟩
  refine ⟨?_, ?_, ?_, ?_, ?_, ?_, ?_, ?_⟩
  · intro ref h
    exact absurd h (by simp [freshBoard])
  · intro ref h
    exact absurd h (by simp [freshBoard])
  · intro id ref h
    exact absurd h (by simp [freshBoard, alookup])
  · intro id ref h
    exact absurd h (by simp [freshBoard, alookup])
  · intro ref h
    exact absurd h (by simp [freshBoard])
  · intro j ref h
    rw [(hempty j).1] at h
    exact absurd h (List.not_mem_nil ref)
  · intro j id ref h
    rw [(hempty j).2] at h
    exact absurd h (by simp [alookup])
  · intro j id ref h
    rw [(hempty j).2] at h
    exact absurd h (by simp [alookup])

/-- Registering a board card leaves existing heap nodes in place. -/
theorem nodeAt_register_lt (s : BoardState) (c : Card) (ref : Nat)
    (h : ref < s.arena.length) :
    (registerBoardCard s c).nodeAt ref = s.nodeAt ref :=
  getD_append_lt s.arena (mkCardNode c) _ ref h

/-- The registered card node lives at the old arena length. -/
theorem nodeAt_register_self (s : BoardState) (c : Card) :
    (registerBoardCard s c).nodeAt s.arena.length = mkCardNode c :=
  getD_append_self s.arena (mkCardNode c) _

/-- Linking into list `j` updates exactly that list's collections. -/
theorem listAt_link_self (s : BoardState) (j : Nat) (c : Card) (ref : Nat)
    (hj : j < s.lists.length) :
    (linkCard s j c ref).listAt j
      = { s.listAt j with
          cards := (s.listAt j).cards ++ [ref]
          byID := (c.id, ref) :: (s.listAt j).byID
          byName := (c.name, ref) :: (s.listAt j).byName } :=
  getD_set_self s.lists j _ _ hj

/-- Linking into list `j` leaves every other list untouched. -/
theorem listAt_link_ne (s : BoardState) (j : Nat) (c : Card) (ref : Nat)
    (j2 : Nat) (h : j ≠ j2) :
    (linkCard s j c ref).listAt j2 = s.listAt j2 :=
  getD_set_ne s.lists j j2 _ _ h

/-- `BoardInv` is preserved when the board's `cards/` refresh registers
a record whose id is not yet materialized. -/
theorem boardInv_register (s : BoardState) (S : List Card) (c : Card)
    (inv : BoardInv s S) (hc : c ∈ S)
    (hnew : alookup s.byCardID c.id = none) :
    BoardInv (registerBoardCard s c) S := by
  have hlen : (registerBoardCard s c).arena.length = s.arena.length + 1 := by
    simp [registerBoardCard]
  have hlook : ∀ id, alookup (registerBoardCard s c).byCardID id
      = if c.id = id then some s.arena.length else alookup s.byCardID id :=
    fun id => rfl
  refine ⟨?_, ?_, ?_, ?_, ?_, ?_, ?_, ?_⟩
  · intro ref h
    rw [hlen] at h
    by_cases href : ref < s.arena.length
    · obtain ⟨c2, hc2S, hc2⟩ := inv.arenaPool ref href
      exact ⟨c2, hc2S, by rw [nodeAt_register_lt s c ref href]; exact hc2⟩
    · have : ref = s.arena.length := by omega
      subst this
      exact ⟨c, hc, nodeAt_register_self s c⟩
  · intro ref h
    rw [hlen] at h
    by_cases href : ref < s.arena.length
    · rw [nodeAt_register_lt s c ref href, hlook]
      have old := inv.arenaReg ref href
      by_cases hcid : c.id = (s.nodeAt ref).trelloID
      · rw [← hcid] at old
        rw [old] at hnew
        exact Option.noConfusion hnew
      · rw [if_neg hcid]
        exact old
    · have : ref = s.arena.length := by omega
      subst this
      rw [nodeAt_register_self s c, hlook]
      show (if c.id = c.id then some s.arena.length
        else alookup s.byCardID c.id) = some s.arena.length
      rw [if_pos rfl]
  · intro id ref h
    rw [hlook] at h
    by_cases hcid : c.id = id
    · rw [if_pos hcid] at h
      have href : ref = s.arena.length := by
        exact (Option.some_inj.mp h).symm
      subst href
      refine ⟨by omega, ?_⟩
      rw [nodeAt_register_self s c]
      exact hcid
    · rw [if_neg hcid] at h
      have old := inv.byIDOk id ref h
      refine ⟨by omega, ?_⟩
      rw [nodeAt_register_lt s c ref old.1]
      exact old.2
  · intro id ref h
    rw [hlook] at h
    show ref ∈ s.boardCards ++ [s.arena.length]
    by_cases hcid : c.id = id
    · rw [if_pos hcid] at h
      have : ref = s.arena.length := (Option.some_inj.mp h).symm
      subst this
      exact List.mem_append_right _ (List.mem_singleton.mpr rfl)
    · rw [if_neg hcid] at h
      exact List.mem_append_left _ (inv.boardCover id ref h)
  · intro ref h
    rw [hlen]
    rcases List.mem_append.mp h with hold | hnew2
    · have := inv.boardRefs ref hold
      omega
    · have : ref = s.arena.length := List.mem_singleton.mp hnew2
      omega
  · intro j ref h
    rw [hlen]
    have := inv.listRefs j ref h
    omega
  · intro j id ref h
    have old := inv.listByID j id ref h
    rw [hlook]
    by_cases hcid : c.id = id
    · rw [hcid] at hnew
      rw [old] at hnew
      exact Option.noConfusion hnew
    · rw [if_neg hcid]
      exact old
  · intro j id ref h
    exact inv.listByIDCover j id ref h

/-- `BoardInv` is preserved when a list refresh links an already
materialized card node into its own collections and again into the
board's. -/
theorem boardInv_link_existing (s : BoardState) (S : List Card) (j : Nat)
    (c : Card) (ref : Nat) (inv : BoardInv s S)
    (hj : j < s.lists.length)
    (hfound : alookup s.byCardID c.id = some ref) :
    BoardInv (linkCard s j c ref) S := by
  have hshadow : ∀ k2, alookup (linkCard s j c ref).byCardID k2
      = alookup s.byCardID k2 :=
    alookup_shadow s.byCardID c.id ref hfound
  have hreflt : ref < s.arena.length := (inv.byIDOk _ _ hfound).1
  have hrefid : (s.nodeAt ref).trelloID = c.id := (inv.byIDOk _ _ hfound).2
  refine ⟨?_, ?_, ?_, ?_, ?_, ?_, ?_, ?_⟩
  · exact inv.arenaPool
  · intro ref2 h
    rw [hshadow]
    exact inv.arenaReg ref2 h
  · intro id ref2 h
    rw [hshadow] at h
    exact inv.byIDOk id ref2 h
  · intro id ref2 h
    rw [hshadow] at h
    exact List.mem_append_left _ (inv.boardCover id ref2 h)
  · intro ref2 h
    rcases List.mem_append.mp h with hold | hnew2
    · exact inv.boardRefs ref2 hold
    · rw [List.mem_singleton.mp hnew2]
      exact hreflt
  · intro j2 ref2 h
    by_cases hjj : j = j2
    · subst hjj
      rw [listAt_link_self s j c ref hj] at h
      rcases List.mem_append.mp h with hold | hnew2
      · exact inv.listRefs j ref2 hold
      · rw [List.mem_singleton.mp hnew2]
        exact hreflt
    · rw [listAt_link_ne s j c ref j2 hjj] at h
      exact inv.listRefs j2 ref2 h
  · intro j2 id ref2 h
    rw [hshadow]
    by_cases hjj : j = j2
    · subst hjj
      rw [listAt_link_self s j c ref hj] at h
      rw [alookup_cons] at h
      by_cases hcid : c.id = id
      · rw [if_pos hcid] at h
        rw [← hcid, hfound]
        exact h.symm ▸ rfl
      · rw [if_neg hcid] at h
        exact inv.listByID j id ref2 h
    · rw [listAt_link_ne s j c ref j2 hjj] at h
      exact inv.listByID j2 id ref2 h
  · intro j2 id ref2 h
    by_cases hjj : j = j2
    · subst hjj
      rw [listAt_link_self s j c ref hj] at h ⊢
      rw [alookup_cons] at h
      by_cases hcid : c.id = id
      · rw [if_pos hcid] at h
        have : ref = ref2 := Option.some_inj.mp h
        subst this
        exact List.mem_append_right _ (List.mem_singleton.mpr rfl)
      · rw [if_neg hcid] at h
        exact List.mem_append_left _ (inv.listByIDCover j id ref2 h)
    · rw [listAt_link_ne s j c ref j2 hjj] at h ⊢
      exact inv.listByIDCover j2 id ref2 h

/-- `BoardInv` is preserved when a list refresh materializes a fresh
card node on the heap and links it into both its own and the board's
collections. -/
theorem boardInv_create_link (s : BoardState) (S : List Card) (j : Nat)
    (c : Card) (inv : BoardInv s S) (hc : c ∈ S)
    (hj : j < s.lists.length)
    (hnew : alookup s.byCardID c.id = none) :
    BoardInv (linkCard { s with arena := s.arena ++ [mkCardNode c] } j c
      s.arena.length) S := by
  have hlistlen : ({ s with arena := s.arena ++ [mkCardNode c]
      } : BoardState).lists.length = s.lists.length := rfl
  have hnode_lt : ∀ ref, ref < s.arena.length →
      (linkCard { s with arena := s.arena ++ [mkCardNode c] } j c
        s.arena.length).nodeAt ref = s.nodeAt ref :=
    fun ref h => getD_append_lt s.arena (mkCardNode c) _ ref h
  have hnode_self :
      (linkCard { s with arena := s.arena ++ [mkCardNode c] } j c
        s.arena.length).nodeAt s.arena.length = mkCardNode c :=
    getD_append_self s.arena (mkCardNode c) _
  have hlook : ∀ id,
      alookup (linkCard { s with arena := s.arena ++ [mkCardNode c] } j c
        s.arena.length).byCardID id
      = if c.id = id then some s.arena.length else alookup s.byCardID id :=
    fun id => rfl
  have hlself :
      (linkCard { s with arena := s.arena ++ [mkCardNode c] } j c
        s.arena.length).listAt j
      = { s.listAt j with
          cards := (s.listAt j).cards ++ [s.arena.length]
          byID := (c.id, s.arena.length) :: (s.listAt j).byID
          byName := (c.name, s.arena.length) :: (s.listAt j).byName } :=
    getD_set_self s.lists j _ _ hj
  have hlne : ∀ j2, j ≠ j2 →
      (linkCard { s with arena := s.arena ++ [mkCardNode c] } j c
        s.arena.length).listAt j2 = s.listAt j2 :=
    fun j2 h => getD_set_ne s.lists j j2 _ _ h
  have harena :
      (linkCard { s with arena := s.arena ++ [mkCardNode c] } j c
        s.arena.length).arena.length = s.arena.length + 1 := by
    simp [linkCard]
  refine ⟨?_, ?_, ?_, ?_, ?_, ?_, ?_, ?_⟩
  · intro ref h
    rw [harena] at h
    by_cases href : ref < s.arena.length
    · obtain ⟨c2, hc2S, hc2⟩ := inv.arenaPool ref href
      exact ⟨c2, hc2S, by rw [hnode_lt ref href]; exact hc2⟩
    · have : ref = s.arena.length := by omega
      subst this
      exact ⟨c, hc, hnode_self⟩
  · intro ref h
    rw [harena] at h
    by_cases href : ref < s.arena.length
    · rw [hnode_lt ref href, hlook]
      have old := inv.arenaReg ref href
      by_cases hcid : c.id = (s.nodeAt ref).trelloID
      · rw [← hcid] at old
        rw [old] at hnew
        exact Option.noConfusion hnew
      · rw [if_neg hcid]
        exact old
    · have : ref = s.arena.length := by omega
      subst this
      rw [hnode_self, hlook]
      show (if c.id = c.id then some s.arena.length
        else alookup s.byCardID c.id) = some s.arena.length
      rw [if_pos rfl]
  · intro id ref h
    rw [hlook] at h
    by_cases hcid : c.id = id
    · rw [if_pos hcid] at h
      have : ref = s.arena.length := (Option.some_inj.mp h).symm
      subst this
      refine ⟨by rw [harena]; omega, ?_⟩
      rw [hnode_self]
      exact hcid
    · rw [if_neg hcid] at h
      have old := inv.byIDOk id ref h
      refine ⟨by rw [harena]; omega, ?_⟩
      rw [hnode_lt ref old.1]
      exact old.2
  · intro id ref h
    rw [hlook] at h
    show ref ∈ s.boardCards ++ [s.arena.length]
    by_cases hcid : c.id = id
    · rw [if_pos hcid] at h
      rw [(Option.some_inj.mp h).symm]
      exact List.mem_append_right _ (List.mem_singleton.mpr rfl)
    · rw [if_neg hcid] at h
      exact List.mem_append_left _ (inv.boardCover id ref h)
  · intro ref h
    rw [harena]
    rcases List.mem_append.mp h with hold | hnew2
    · have := inv.boardRefs ref hold
      omega
    · have : ref = s.arena.length := List.mem_singleton.mp hnew2
      omega
  · intro j2 ref h
    rw [harena]
    by_cases hjj : j = j2
    · subst hjj
      rw [hlself] at h
      rcases List.mem_append.mp h with hold | hnew2
      · have := inv.listRefs j ref hold
        omega
      · have : ref = s.arena.length := List.mem_singleton.mp hnew2
        omega
    · rw [hlne j2 hjj] at h
      have := inv.listRefs j2 ref h
      omega
  · intro j2 id ref h
    rw [hlook]
    by_cases hjj : j = j2
    · subst hjj
      rw [hlself] at h
      rw [alookup_cons] at h
      by_cases hcid : c.id = id
      · rw [if_pos hcid] at h
        rw [if_pos hcid]
        exact h
      · rw [if_neg hcid] at h
        rw [if_neg hcid]
        exact inv.listByID j id ref h
    · rw [hlne j2 hjj] at h
      have old := inv.listByID j2 id ref h
      by_cases hcid : c.id = id
      · rw [hcid] at hnew
        rw [old] at hnew
        exact Option.noConfusion hnew
      · rw [if_neg hcid]
        exact old
  · intro j2 id ref h
    by_cases hjj : j = j2
    · subst hjj
      rw [hlself] at h ⊢
      rw [alookup_cons] at h
      by_cases hcid : c.id = id
      · rw [if_pos hcid] at h
        rw [(Option.some_inj.mp h)]
        exact List.mem_append_right _ (List.mem_singleton.mpr rfl)
      · rw [if_neg hcid] at h
        exact List.mem_append_left _ (inv.listByIDCover j id ref h)
    · rw [hlne j2 hjj] at h ⊢
      exact inv.listByIDCover j2 id ref h

/-- The facts the `cards/` merge loop guarantees: the invariant is
maintained, existing `ByCardID` bindings survive unchanged, every fetched
record ends up materialized in `ByCardID`, and the board's lists are not
touched. -/
theorem cardsDirUpdateLoop_facts (recs : List Card) (s : BoardState)
    (S : List Card) (inv : BoardInv s S) (hsub : ∀ c ∈ recs, c ∈ S) :
    BoardInv (cardsDirUpdateLoop s recs).1 S ∧
    (∀ id ref, alookup s.byCardID id = some ref →
      alookup (cardsDirUpdateLoop s recs).1.byCardID id = some ref) ∧
    (∀ c ∈ recs,
      ∃ ref, alookup (cardsDirUpdateLoop s recs).1.byCardID c.id
        = some ref) ∧
    (cardsDirUpdateLoop s recs).1.lists = s.lists := by
  induction recs generalizing s with
  | nil =>
    exact ⟨inv, fun id ref h => h,
      fun c hc => absurd hc (List.not_mem_nil c), rfl⟩
  | cons c rest ih =>
    cases hlk : alookup s.byCardID c.id with
    | some ref0 =>
      have hred : cardsDirUpdateLoop s (c :: rest)
          = cardsDirUpdateLoop s rest := by
        rw [cardsDirUpdateLoop, hlk]
      rw [hred]
      obtain ⟨inv2, stable, compl, hlists⟩ :=
        ih s inv (fun c2 hc2 => hsub c2 (List.mem_cons_of_mem c hc2))
      refine ⟨inv2, stable, ?_, hlists⟩
      intro c2 hc2
      rcases List.mem_cons.mp hc2 with he | hr
      · subst he
        exact ⟨ref0, stable c2.id ref0 hlk⟩
      · exact compl c2 hr
    | none =>
      have hred : cardsDirUpdateLoop s (c :: rest)
          = ((cardsDirUpdateLoop (registerBoardCard s c) rest).1,
             s.arena.length
               :: (cardsDirUpdateLoop (registerBoardCard s c) rest).2) := by
        rw [cardsDirUpdateLoop, hlk]
      rw [hred]
      have inv2 := boardInv_register s S c inv
        (hsub c (List.mem_cons_self c rest)) hlk
      obtain ⟨inv3, stable, compl, hlists⟩ :=
        ih (registerBoardCard s c) inv2
          (fun c2 hc2 => hsub c2 (List.mem_cons_of_mem c hc2))
      refine ⟨inv3, ?_, ?_, ?_⟩
      · intro id ref h
        apply stable
        show alookup ((c.id, s.arena.length) :: s.byCardID) id = some ref
        rw [alookup_cons]
        by_cases hcid : c.id = id
        · rw [hcid] at hlk
          rw [h] at hlk
          exact Option.noConfusion hlk
        · rw [if_neg hcid]
          exact h
      · intro c2 hc2
        rcases List.mem_cons.mp hc2 with he | hr
        · subst he
          refine ⟨s.arena.length, ?_⟩
          apply stable
          show alookup ((c2.id, s.arena.length) :: s.byCardID) c2.id
            = some s.arena.length
          rw [alookup_cons, if_pos rfl]
        · exact compl c2 hr
      · exact hlists

/-- The facts the list merge loop guarantees for list `j`: the invariant
is maintained, existing `ByCardID` and list-`ByID` bindings survive
unchanged, every fetched record ends up in the list's `ByID`, and the
number of lists is unchanged. -/
theorem listUpdateLoop_facts (recs : List Card) (s : BoardState)
    (S : List Card) (j : Nat) (inv : BoardInv s S)
    (hsub : ∀ c ∈ recs, c ∈ S) (hj : j < s.lists.length) :
    BoardInv (listUpdateLoop s j recs).1 S ∧
    (∀ id ref, alookup s.byCardID id = some ref →
      alookup (listUpdateLoop s j recs).1.byCardID id = some ref) ∧
    (∀ id ref, alookup (s.listAt j).byID id = some ref →
      alookup ((listUpdateLoop s j recs).1.listAt j).byID id = some ref) ∧
    (∀ c ∈ recs, ∃ ref,
      alookup ((listUpdateLoop s j recs).1.listAt j).byID c.id
        = some ref) ∧
    (listUpdateLoop s j recs).1.lists.length = s.lists.length := by
  induction recs generalizing s with
  | nil =>
    exact ⟨inv, fun id ref h => h, fun id ref h => h,
      fun c hc => absurd hc (List.not_mem_nil c), rfl⟩
  | cons c rest ih =>
    cases hlk : alookup s.byCardID c.id with
    | some ref0 =>
      cases hin : alookup (s.listAt j).byID c.id with
      | some ref1 =>
        have hred : listUpdateLoop s j (c :: rest)
            = listUpdateLoop s j rest := by
          rw [listUpdateLoop, hlk, hin]
          rfl
        rw [hred]
        obtain ⟨inv2, stable, stableL, compl, hlen⟩ :=
          ih s inv (fun c2 hc2 => hsub c2 (List.mem_cons_of_mem c hc2)) hj
        refine ⟨inv2, stable, stableL, ?_, hlen⟩
        intro c2 hc2
        rcases List.mem_cons.mp hc2 with he | hr
        · subst he
          exact ⟨ref1, stableL c2.id ref1 hin⟩
        · exact compl c2 hr
      | none =>
        have hred : listUpdateLoop s j (c :: rest)
            = listUpdateLoop (linkCard s j c ref0) j rest := by
          rw [listUpdateLoop, hlk, hin]
          rfl
        rw [hred]
        have inv2 := boardInv_link_existing s S j c ref0 inv hj hlk
        have hj2 : j < (linkCard s j c ref0).lists.length := by
          show j < (s.lists.set j _).length
          rw [List.length_set]
          exact hj
        obtain ⟨inv3, stable, stableL, compl, hlen⟩ :=
          ih (linkCard s j c ref0) inv2
            (fun c2 hc2 => hsub c2 (List.mem_cons_of_mem c hc2)) hj2
        have hshadow := alookup_shadow s.byCardID c.id ref0 hlk
        have hbindL : alookup ((linkCard s j c ref0).listAt j).byID c.id
            = some ref0 := by
          rw [listAt_link_self s j c ref0 hj]
          show alookup ((c.id, ref0) :: (s.listAt j).byID) c.id = some ref0
          rw [alookup_cons, if_pos rfl]
        refine ⟨inv3, ?_, ?_, ?_, ?_⟩
        · intro id ref h
          apply stable
          show alookup ((c.id, ref0) :: s.byCardID) id = some ref
          rw [hshadow id]
          exact h
        · intro id ref h
          apply stableL
          rw [listAt_link_self s j c ref0 hj]
          show alookup ((c.id, ref0) :: (s.listAt j).byID) id = some ref
          rw [alookup_cons]
          by_cases hcid : c.id = id
          · exfalso
            rw [← hcid] at h
            rw [h] at hin
            exact Option.noConfusion hin
          · rw [if_neg hcid]
            exact h
        · intro c2 hc2
          rcases List.mem_cons.mp hc2 with he | hr
          · subst he
            exact ⟨ref0, stableL c2.id ref0 hbindL⟩
          · exact compl c2 hr
        · rw [hlen]
          show (s.lists.set j _).length = s.lists.length
          exact List.length_set s.lists j _
    | none =>
      have hin : alookup (s.listAt j).byID c.id = none := by
        cases h2 : alookup (s.listAt j).byID c.id with
        | none => rfl
        | some ref2 =>
          have := inv.listByID j c.id ref2 h2
          rw [hlk] at this
          exact Option.noConfusion this
      have hinE : alookup (({ s with arena := s.arena ++ [mkCardNode c]
          } : BoardState).listAt j).byID c.id = none := hin
      have hred : listUpdateLoop s j (c :: rest)
          = ((listUpdateLoop
                (linkCard { s with arena := s.arena ++ [mkCardNode c] } j c
                  s.arena.length) j rest).1,
             s.arena.length
               :: (listUpdateLoop
                (linkCard { s with arena := s.arena ++ [mkCardNode c] } j c
                  s.arena.length) j rest).2) := by
        rw [listUpdateLoop, hlk, hinE]
        rfl
      rw [hred]
      have inv2 := boardInv_create_link s S j c inv
        (hsub c (List.mem_cons_self c rest)) hj hlk
      have hj2 : j < (linkCard { s with arena := s.arena ++ [mkCardNode c] }
          j c s.arena.length).lists.length := by
        show j < (s.lists.set j _).length
        rw [List.length_set]
        exact hj
      obtain ⟨inv3, stable, stableL, compl, hlen⟩ :=
        ih (linkCard { s with arena := s.arena ++ [mkCardNode c] } j c
            s.arena.length) inv2
          (fun c2 hc2 => hsub c2 (List.mem_cons_of_mem c hc2)) hj2
      have hlself :
          (linkCard { s with arena := s.arena ++ [mkCardNode c] } j c
            s.arena.length).listAt j
          = { s.listAt j with
              cards := (s.listAt j).cards ++ [s.arena.length]
              byID := (c.id, s.arena.length) :: (s.listAt j).byID
              byName := (c.name, s.arena.length) :: (s.listAt j).byName } :=
        getD_set_self s.lists j _ _ hj
      refine ⟨inv3, ?_, ?_, ?_, ?_⟩
      · intro id ref h
        apply stable
        show alookup ((c.id, s.arena.length) :: s.byCardID) id = some ref
        rw [alookup_cons]
        by_cases hcid : c.id = id
        · rw [hcid] at hlk
          rw [h] at hlk
          exact Option.noConfusion hlk
        · rw [if_neg hcid]
          exact h
      · intro id ref h
        apply stableL
        rw [hlself]
        show alookup ((c.id, s.arena.length) :: (s.listAt j).byID) id
          = some ref
        rw [alookup_cons]
        by_cases hcid : c.id = id
        · rw [hcid] at hin
          rw [h] at hin
          exact Option.noConfusion hin
        · rw [if_neg hcid]
          exact h
      · intro c2 hc2
        rcases List.mem_cons.mp hc2 with he | hr
        · subst he
          refine ⟨s.arena.length, ?_⟩
          apply stableL
          rw [hlself]
          show alookup ((c2.id, s.arena.length) :: (s.listAt j).byID) c2.id
            = some s.arena.length
          rw [alookup_cons, if_pos rfl]
        · exact compl c2 hr
      · rw [hlen]
        show (s.lists.set j _).length = s.lists.length
        exact List.length_set s.lists j _

/-- A linear scan returns the one element satisfying the predicate when
that element is in the list and nothing else satisfies it. -/
theorem find?_eq_of_unique {α : Type} (p : α → Bool) (l : List α) (x : α)
    (hmem : x ∈ l) (hx : p x = true)
    (huniq : ∀ y ∈ l, p y = true → y = x) :
    l.find? p = some x := by
  induction l with
  | nil => exact absurd hmem (List.not_mem_nil x)
  | cons a rest ih =>
    by_cases ha : p a = true
    · rw [List.find?_cons_of_pos rest ha,
        huniq a (List.mem_cons_self a rest) ha]
    · rw [List.find?_cons_of_neg rest (by simpa using ha)]
      refine ih ?_ (fun y hy hp => huniq y (List.mem_cons_of_mem a hy) hp)
      rcases List.mem_cons.mp hmem with he | hr
      · subst he
        exact absurd hx ha
      · exact hr

/-- In a well-formed board state whose records come from a pool with
unique ids and unique names, the `cards/` lookup and the list-`j` lookup
of a materialized record's name both return the record's one canonical
node reference. -/
theorem lookups_agree (s : BoardState) (S : List Card) (inv : BoardInv s S)
    (hid : ∀ c1 ∈ S, ∀ c2 ∈ S, c1.id = c2.id → c1 = c2)
    (hname : ∀ c1 ∈ S, ∀ c2 ∈ S, c1.name = c2.name → c1 = c2)
    (r : Card) (hr : r ∈ S) (j : Nat) (ρ ρ2 : Nat)
    (hρ : alookup s.byCardID r.id = some ρ)
    (hρ2 : alookup (s.listAt j).byID r.id = some ρ2) :
    s.cardsDirLookup r.name = some ρ ∧ s.listLookup j r.name = some ρ := by
  have hρlt : ρ < s.arena.length := (inv.byIDOk _ _ hρ).1
  have hρid : (s.nodeAt ρ).trelloID = r.id := (inv.byIDOk _ _ hρ).2
  obtain ⟨c2, hc2S, hc2⟩ := inv.arenaPool ρ hρlt
  have hc2id : c2.id = r.id := by
    rw [hc2] at hρid
    exact hρid
  have hc2r : c2 = r := hid c2 hc2S r hr hc2id
  have hρnode : s.nodeAt ρ = mkCardNode r := by
    rw [hc2, hc2r]
  have hρname : (s.nodeAt ρ).name = r.name := by
    rw [hρnode]
    rfl
  have huniq : ∀ x, x < s.arena.length → (s.nodeAt x).name = r.name →
      x = ρ := by
    intro x hx hxname
    obtain ⟨c3, hc3S, hc3⟩ := inv.arenaPool x hx
    have hc3name : c3.name = r.name := by
      rw [hc3] at hxname
      exact hxname
    have hc3r : c3 = r := hname c3 hc3S r hr hc3name
    have hxid : (s.nodeAt x).trelloID = r.id := by
      rw [hc3, hc3r]
      rfl
    have hreg := inv.arenaReg x hx
    rw [hxid, hρ] at hreg
    exact (Option.some_inj.mp hreg).symm
  constructor
  · unfold BoardState.cardsDirLookup
    apply find?_eq_of_unique _ _ ρ (inv.boardCover _ _ hρ)
    · simp [hρname]
    · intro x hxmem hxp
      exact huniq x (inv.boardRefs x hxmem) (by simpa using hxp)
  · have hbind : alookup s.byCardID r.id = some ρ2 :=
      inv.listByID j _ _ hρ2
    have hρ2ρ : ρ2 = ρ := by
      rw [hρ] at hbind
      exact (Option.some_inj.mp hbind).symm
    have hmem : ρ ∈ (s.listAt j).cards := by
      have := inv.listByIDCover j _ _ hρ2
      rwa [hρ2ρ] at this
    unfold BoardState.listLookup
    apply find?_eq_of_unique _ _ ρ hmem
    · simp [hρname]
    · intro x hxmem hxp
      exact huniq x (inv.listRefs j x hxmem) (by simpa using hxp)

/-- `markUpdated` on the `cards/` collection node changes only its
timestamp: the invariant carries over. -/
theorem boardInv_setCardsTime (s : BoardState) (S : List Card) (t : Int)
    (inv : BoardInv s S) :
    BoardInv { s with cardsDirLastUpdate := t } S :=
  ⟨inv.arenaPool, inv.arenaReg, inv.byIDOk, inv.boardCover, inv.boardRefs,
   inv.listRefs, inv.listByID, inv.listByIDCover⟩

/-- `markUpdated` on list `j` rewrites only that list's timestamp; its
collections, read back through `listAt`, are unchanged. -/
theorem listAt_touch (s : BoardState) (j : Nat) (t : Int) (j2 : Nat) :
    ((touchListTime s j t).listAt j2).cards = (s.listAt j2).cards ∧
    ((touchListTime s j t).listAt j2).byID = (s.listAt j2).byID := by
  by_cases hjj : j = j2
  · subst hjj
    by_cases hj : j < s.lists.length
    · have h : (touchListTime s j t).listAt j
          = { s.listAt j with lastUpdate := t } :=
        getD_set_self s.lists j _ _ hj
      rw [h]
      exact ⟨rfl, rfl⟩
    · have hset : s.lists.set j { s.listAt j with lastUpdate := t }
          = s.lists := List.set_eq_of_length_le (by omega)
      have h : (touchListTime s j t).listAt j = s.listAt j := by
        show (s.lists.set j _).getD j _ = _
        rw [hset]
        rfl
      rw [h]
      exact ⟨rfl, rfl⟩
  · have h : (touchListTime s j t).listAt j2 = s.listAt j2 :=
      getD_set_ne s.lists j j2 _ _ hjj
    rw [h]
    exact ⟨rfl, rfl⟩

/-- `markUpdated` on list `j` preserves the invariant. -/
theorem boardInv_touchListTime (s : BoardState) (S : List Card) (j : Nat)
    (t : Int) (inv : BoardInv s S) :
    BoardInv (touchListTime s j t) S := by
  refine ⟨inv.arenaPool, inv.arenaReg, inv.byIDOk, inv.boardCover,
    inv.boardRefs, ?_, ?_, ?_⟩
  · intro j2 ref h
    rw [(listAt_touch s j t j2).1] at h
    exact inv.listRefs j2 ref h
  · intro j2 id ref h
    rw [(listAt_touch s j t j2).2] at h
    exact inv.listByID j2 id ref h
  · intro j2 id ref h
    rw [(listAt_touch s j t j2).2] at h
    rw [(listAt_touch s j t j2).1]
    exact inv.listByIDCover j2 id ref h

/-- `markUpdated` on list `j` changes neither lookup result. -/
theorem lookups_touchListTime (s : BoardState) (j : Nat) (t : Int)
    (nm : String) :
    ((touchListTime s j t).cardsDirLookup nm = s.cardsDirLookup nm) ∧
    ((touchListTime s j t).listLookup j nm = s.listLookup j nm) := by
  constructor
  · rfl
  · unfold BoardState.listLookup
    rw [(listAt_touch s j t j).1]
    rfl

/-- Claim C1: on a fresh board, when the remote source reports a card
record `r` both through the board's `cards/` collection (`cb`) and
through list `j` (`cl`), and sibling names are unique (records are
determined by their id and by their name across both fetches), then —
whichever of the two collections is refreshed first — looking up `r`'s
name under `cards/` and under `lists/<L>/` resolves to the same card
node reference, i.e. the same heap node, hence identical inode id,
attributes, and field files. -/
theorem shared_card_identity (ls : List ListState) (j : Nat)
    (hj : j < ls.length)
    (hls : ∀ l ∈ ls, l.cards = [] ∧ l.byID = [] ∧ l.byName = [])
    (cb cl : List Card) (r : Card) (hrb : r ∈ cb) (hrl : r ∈ cl)
    (hid : ∀ c1 ∈ cb ++ cl, ∀ c2 ∈ cb ++ cl, c1.id = c2.id → c1 = c2)
    (hname : ∀ c1 ∈ cb ++ cl, ∀ c2 ∈ cb ++ cl, c1.name = c2.name → c1 = c2)
    (now1 now2 : Int) :
    (∃ ρ,
      (listUpdate (cardsDirUpdate (freshBoard ls) cb now1).1 j cl
          now2).1.cardsDirLookup r.name = some ρ ∧
      (listUpdate (cardsDirUpdate (freshBoard ls) cb now1).1 j cl
          now2).1.listLookup j r.name = some ρ) ∧
    (∃ ρ,
      (cardsDirUpdate (listUpdate (freshBoard ls) j cl now1).1 cb
          now2).1.cardsDirLookup r.name = some ρ ∧
      (cardsDirUpdate (listUpdate (freshBoard ls) j cl now1).1 cb
          now2).1.listLookup j r.name = some ρ) := by
  have hsubB : ∀ c ∈ cb, c ∈ cb ++ cl :=
    fun c hc => List.mem_append_left cl hc
  have hsubL : ∀ c ∈ cl, c ∈ cb ++ cl :=
    fun c hc => List.mem_append_right cb hc
  have hr : r ∈ cb ++ cl := hsubB r hrb
  have inv0 := boardInv_fresh ls (cb ++ cl) hls
  constructor
  · -- cards/ first, then the list
    obtain ⟨invB1, stableB1, complB1, hlistsB1⟩ :=
      cardsDirUpdateLoop_facts cb (freshBoard ls) (cb ++ cl) inv0 hsubB
    have inv1 : BoardInv (cardsDirUpdate (freshBoard ls) cb now1).1
        (cb ++ cl) :=
      boardInv_setCardsTime _ _ now1 invB1
    have hj1 : j < (cardsDirUpdate (freshBoard ls) cb now1).1.lists.length := by
      show j < (cardsDirUpdateLoop (freshBoard ls) cb).1.lists.length
      rw [hlistsB1]
      exact hj
    obtain ⟨invL1, stableL1, stableLL1, complL1, hlenL1⟩ :=
      listUpdateLoop_facts cl (cardsDirUpdate (freshBoard ls) cb now1).1
        (cb ++ cl) j inv1 hsubL hj1
    obtain ⟨ρ0, hρ0⟩ := complB1 r hrb
    have hρ0c := stableL1 r.id ρ0 hρ0
    obtain ⟨ρ2, hρ2⟩ := complL1 r hrl
    have invA := boardInv_touchListTime
      (listUpdateLoop (cardsDirUpdate (freshBoard ls) cb now1).1 j cl).1
      (cb ++ cl) j now2 invL1
    have hbindL : alookup
        ((listUpdate (cardsDirUpdate (freshBoard ls) cb now1).1 j cl
          now2).1.listAt j).byID r.id = some ρ2 := by
      show alookup ((touchListTime
        (listUpdateLoop (cardsDirUpdate (freshBoard ls) cb now1).1 j cl).1
        j now2).listAt j).byID r.id = some ρ2
      rw [(listAt_touch _ j now2 j).2]
      exact hρ2
    have hfin := lookups_agree
      (listUpdate (cardsDirUpdate (freshBoard ls) cb now1).1 j cl now2).1
      (cb ++ cl) invA hid hname r hr j ρ0 ρ2 hρ0c hbindL
    exact ⟨ρ0, hfin.1, hfin.2⟩
  · -- the list first, then cards/
    obtain ⟨invL0, stableL0, stableLL0, complL0, hlenL0⟩ :=
      listUpdateLoop_facts cl (freshBoard ls) (cb ++ cl) j inv0 hsubL hj
    have inv1 : BoardInv (listUpdate (freshBoard ls) j cl now1).1
        (cb ++ cl) :=
      boardInv_touchListTime _ _ j now1 invL0
    obtain ⟨ρ2, hρ2⟩ := complL0 r hrl
    have hbind1 : alookup
        ((listUpdate (freshBoard ls) j cl now1).1.listAt j).byID r.id
        = some ρ2 := by
      show alookup ((touchListTime
        (listUpdateLoop (freshBoard ls) j cl).1 j now1).listAt j).byID r.id
        = some ρ2
      rw [(listAt_touch _ j now1 j).2]
      exact hρ2
    obtain ⟨invB2, stableB2, complB2, hlistsB2⟩ :=
      cardsDirUpdateLoop_facts cb (listUpdate (freshBoard ls) j cl now1).1
        (cb ++ cl) inv1 hsubB
    obtain ⟨ρ0, hρ0⟩ := complB2 r hrb
    have invB : BoardInv
        (cardsDirUpdate (listUpdate (freshBoard ls) j cl now1).1 cb now2).1
        (cb ++ cl) :=
      boardInv_setCardsTime _ _ now2 invB2
    have hlistAt :
        (cardsDirUpdateLoop (listUpdate (freshBoard ls) j cl now1).1 cb).1.listAt j
        = (listUpdate (freshBoard ls) j cl now1).1.listAt j := by
      show (cardsDirUpdateLoop (listUpdate (freshBoard ls) j cl now1).1
        cb).1.lists.getD j _ = _
      rw [hlistsB2]
      rfl
    have hbindL2 : alookup
        ((cardsDirUpdate (listUpdate (freshBoard ls) j cl now1).1 cb
          now2).1.listAt j).byID r.id = some ρ2 := by
      show alookup
        ((cardsDirUpdateLoop (listUpdate (freshBoard ls) j cl now1).1
          cb).1.listAt j).byID r.id = some ρ2
      rw [hlistAt]
      exact hbind1
    have hfin := lookups_agree
      (cardsDirUpdate (listUpdate (freshBoard ls) j cl now1).1 cb now2).1
      (cb ++ cl) invB hid hname r hr j ρ0 ρ2 hρ0 hbindL2
    exact ⟨ρ0, hfin.1, hfin.2⟩

/-- Witness for `shared_card_identity`: the spec scenario — fresh list
`L`, the single card `C` reported by both fetches. -/
theorem shared_card_identity_witness :
    (∃ ρ,
      (listUpdate (cardsDirUpdate (freshBoard [listL]) [cardC] 10).1 0
          [cardC] 20).1.cardsDirLookup cardC.name = some ρ ∧
      (listUpdate (cardsDirUpdate (freshBoard [listL]) [cardC] 10).1 0
          [cardC] 20).1.listLookup 0 cardC.name = some ρ) ∧
    (∃ ρ,
      (cardsDirUpdate (listUpdate (freshBoard [listL]) 0 [cardC] 10).1
          [cardC] 20).1.cardsDirLookup cardC.name = some ρ ∧
      (cardsDirUpdate (listUpdate (freshBoard [listL]) 0 [cardC] 10).1
          [cardC] 20).1.listLookup 0 cardC.name = some ρ) :=
  shared_card_identity [listL] 0 (by decide) (by decide) [cardC] [cardC]
    cardC (by decide) (by decide) (by decide) (by decide) 10 20

end Trellofs
